import Mathlib

/-!
Verification of secrets-init, Google provider: `pkg/secrets/google/secrets.go`.

A shallow embedding of `SecretsProvider.ResolveSecrets`, of
`NewGoogleSecretsProvider` and of the library functions they call, followed by
theorems about the resolution pass and about the construction of a provider.

Modelling conventions:

* A Go `string` is a `List Char` (`Str`): one element per byte/rune. Every
  literal the program compares against (`=`, `/`, `+`, the scheme tag,
  `/versions/`, the pattern of `fullSecretRe`) is ASCII, and `strings.Split`,
  `strings.HasPrefix`, `strings.TrimPrefix`, `strings.Contains`, concatenation
  and the regular expression act the same way on the element sequence.
  `string(secret.Payload.GetData())` keeps the payload's bytes, so the payload
  is a `Str` as well.
* The Secret Manager client (`sp.sm`) is an arbitrary state machine: a call
  gets the context, the request name and the current store state and gives a
  response (payload or error) and the next store state.
* A run of `ResolveSecrets` records, besides what the function returns, the
  sequence of calls made to `AccessSecretVersion` (request name and response).
* `kv[1]` on a slice of length one is a Go run-time panic (index out of
  range); a run that panics returns nothing.
* `metadata.ProjectID()` and `secretmanager.NewClient(ctx)` are parameters of
  `NewGoogleSecretsProvider`: the values these library calls return.
* `Regexp.Matches` is the language of a regular expression; `MatchString`, a
  matcher by derivatives, is proved to decide whether a substring is in it.
-/

namespace SecretsInit

/-- A Go string, as the sequence of its elements. -/
abbrev Str := List Char

deriving instance DecidableEq for Except

/-! ## Library functions: package `strings` -/

/-- Go `strings.HasPrefix(s, p)`: does `s` begin with `p`. -/
def HasPrefix (s p : Str) : Bool :=
  p.isPrefixOf s

/-- Go `strings.TrimPrefix(s, p)`: `s` without the leading `p`, or `s` itself
when `s` does not begin with `p`. -/
def TrimPrefix (s p : Str) : Str :=
  if HasPrefix s p then s.drop p.length else s

/-- Go `strings.Contains(s, substr)`: does `substr` occur somewhere in `s`. -/
def Contains : Str → Str → Bool
  | [], substr => HasPrefix [] substr
  | c :: cs, substr => HasPrefix (c :: cs) substr || Contains cs substr

/-- Go `strings.Split(s, sep)` for a one-byte separator `sep`: all the
substrings of `s` between occurrences of `sep`, every occurrence being a cut
(a string without `sep` gives the one-element slice holding `s`). -/
def Split : Str → Char → List Str
  | [], _ => [[]]
  | c :: cs, sep =>
    if c = sep then [] :: Split cs sep
    else
      match Split cs sep with
      | [] => [[c]]
      | piece :: pieces => (c :: piece) :: pieces

/-! ## Library functions: package `regexp` -/

/-- Abstract syntax of the regular expressions used by the program
(the operators of Go `regexp/syntax` that the pattern of `fullSecretRe` needs). -/
inductive Regexp where
  /-- Matches no string. -/
  | noMatch : Regexp
  /-- Matches the empty string. -/
  | emptyMatch : Regexp
  /-- One literal character. -/
  | literal : Char → Regexp
  /-- A negated character class `[^...]`: one character not in the list. -/
  | notIn : List Char → Regexp
  /-- Concatenation `r s`. -/
  | concat : Regexp → Regexp → Regexp
  /-- Alternation. -/
  | alternate : Regexp → Regexp → Regexp
  /-- Zero or more repetitions. -/
  | star : Regexp → Regexp
  /-- One or more repetitions `r+`. -/
  | plus : Regexp → Regexp
  /-- Zero or one occurrence `r?`. -/
  | quest : Regexp → Regexp
  deriving DecidableEq, Repr

namespace Regexp

/-- The literal string `s` as a regular expression. -/
def str : Str → Regexp
  | [] => emptyMatch
  | c :: cs => concat (literal c) (str cs)

/-- Does the expression match the empty string. -/
def nullable : Regexp → Bool
  | noMatch => false
  | emptyMatch => true
  | literal _ => false
  | notIn _ => false
  | concat r s => nullable r && nullable s
  | alternate r s => nullable r || nullable s
  | star _ => true
  | plus r => nullable r
  | quest _ => true

/-- Brzozowski derivative: what is left to match after reading `c`. -/
def deriv : Regexp → Char → Regexp
  | noMatch, _ => noMatch
  | emptyMatch, _ => noMatch
  | literal a, c => if a = c then emptyMatch else noMatch
  | notIn cs, c => if c ∈ cs then noMatch else emptyMatch
  | concat r s, c =>
    if nullable r then alternate (concat (deriv r c) s) (deriv s c)
    else concat (deriv r c) s
  | alternate r s, c => alternate (deriv r c) (deriv s c)
  | star r, c => concat (deriv r c) (star r)
  | plus r, c => concat (deriv r c) (star r)
  | quest r, c => deriv r c

/-- Does some prefix of the input (possibly empty) match the expression. -/
def matchesPrefix : Regexp → Str → Bool
  | r, [] => nullable r
  | r, c :: cs => nullable r || matchesPrefix (deriv r c) cs

end Regexp

/-- Go `(*Regexp).MatchString(s)`: does `s` contain any match of the
expression (the search is not anchored). -/
def MatchString (re : Regexp) : Str → Bool
  | [] => re.matchesPrefix []
  | c :: cs => re.matchesPrefix (c :: cs) || MatchString re cs

/-! ## The program -/

/-- The scheme tag `gcp:secretmanager:`. -/
def schemeTag : Str := "gcp:secretmanager:".toList

/-- The character class `[^/+]`. -/
def notSlashPlus : Regexp := .notIn ['/', '+']

/-- Line 56:
`regexp.MustCompile("projects/[^/]+/secrets/[^/+](/version/[^/+])?")`. -/
def fullSecretRe : Regexp :=
  .concat (.str "projects/".toList)
    (.concat (.plus (.notIn ['/']))
      (.concat (.str "/secrets/".toList)
        (.concat notSlashPlus
          (.quest (.concat (.str "/version/".toList) notSlashPlus)))))

/-- The interface `SecretsManagerAPI`: `AccessSecretVersion(ctx, req)` with
`req.Name = name`, run in store state `st`; the answer is the payload data of
the response or the error, and the next store state. -/
structure SecretsManagerAPI (κ σ ε : Type) where
  AccessSecretVersion : κ → Str → σ → Except ε Str × σ

/-- Lines 19-22: `type SecretsProvider struct`. -/
structure SecretsProvider (κ σ ε : Type) where
  sm : SecretsManagerAPI κ σ ε
  projectID : Str

/-- The errors `ResolveSecrets` builds with `github.com/pkg/errors`. -/
inductive Error (ε : Type) where
  /-- The value `errors.Errorf(...)` with its formatted message. -/
  | Errorf : Str → Error ε
  /-- The value `errors.Wrap(cause, msg)`. -/
  | Wrap : ε → Str → Error ε
  deriving DecidableEq

/-- One call of `AccessSecretVersion`: the request name and the response. -/
abbrev Call (ε : Type) := Str × Except ε Str

/-- What one iteration of the loop (lines 59-88) does. -/
inductive Iter (σ ε : Type) where
  /-- Line 88 is reached: `envs = append(envs, env)`. -/
  | append : Str → List (Call ε) → σ → Iter σ ε
  /-- The function returns `vars, err` (lines 69 and 84). -/
  | fail : Error ε → List (Call ε) → σ → Iter σ ε
  /-- Index out of range at `kv[1]` (line 60). -/
  | panic : Iter σ ε

/-- A run of `ResolveSecrets`. -/
structure Run (σ ε : Type) where
  /-- The calls made to `AccessSecretVersion`, in order. -/
  calls : List (Call ε)
  /-- The store state after the run. -/
  store : σ
  /-- The returned pair `([]string, error)`; `none` when the run panicked. -/
  ret : Option (List Str × Option (Error ε))

/-- The message of the error of line 69. -/
def unknownProjectMsg (name : Str) : Str :=
  "failed to get secret \"".toList ++ name ++
    "\" from Google Secret Manager (unknown project)".toList

/-- The message of the error of line 84. -/
def fetchFailedMsg : Str := "failed to get secret from Google Secret Manager".toList

/-- Line 71: `fmt.Sprintf("projects/%s/secrets/%s", sp.projectID, name)`. -/
def ResolveSecrets.qualified (projectID name : Str) : Str :=
  "projects/".toList ++ projectID ++ "/secrets/".toList ++ name

/-- Lines 74-77: `if !strings.Contains(name, "/versions/")` then
`name += "/versions/latest"`. -/
def ResolveSecrets.versioned (name : Str) : Str :=
  if !Contains name "/versions/".toList then name ++ "/versions/latest".toList else name

/-- Lines 74-86: default the version, call the store, rebuild the entry. -/
def ResolveSecrets.access {κ σ ε : Type} (sp : SecretsProvider κ σ ε) (ctx : κ)
    (key name : Str) (st : σ) : Iter σ ε :=
  let name := ResolveSecrets.versioned name
  match sp.sm.AccessSecretVersion ctx name st with
  | (.error err, st') => .fail (.Wrap err fetchFailedMsg) [(name, .error err)] st'
  | (.ok payload, st') => .append (key ++ "=".toList ++ payload) [(name, .ok payload)] st'

/-- Lines 59-87: the body of the loop for the entry `env`. -/
def ResolveSecrets.body {κ σ ε : Type} (sp : SecretsProvider κ σ ε) (ctx : κ)
    (env : Str) (st : σ) : Iter σ ε :=
  match Split env '=' with
  | key :: value :: _ =>
    if HasPrefix value schemeTag then
      let name := TrimPrefix value schemeTag
      let isLong := MatchString fullSecretRe name
      if !isLong then
        if sp.projectID = [] then
          .fail (.Errorf (unknownProjectMsg name)) [] st
        else
          ResolveSecrets.access sp ctx key (ResolveSecrets.qualified sp.projectID name) st
      else
        ResolveSecrets.access sp ctx key name st
    else
      .append env [] st
  | _ => .panic

/-- Lines 58-91: the loop over the entries still to process, with `envs` built
so far, the calls made so far and the current store state; `vars` is the
argument of the function, returned next to an error. -/
def ResolveSecrets.loop {κ σ ε : Type} (sp : SecretsProvider κ σ ε) (ctx : κ)
    (vars : List Str) : List Str → List Str → List (Call ε) → σ → Run σ ε
  | [], envs, calls, st => ⟨calls, st, some (envs, none)⟩
  | env :: rest, envs, calls, st =>
    match ResolveSecrets.body sp ctx env st with
    | .append env' cs st' =>
      ResolveSecrets.loop sp ctx vars rest (envs ++ [env']) (calls ++ cs) st'
    | .fail err cs st' => ⟨calls ++ cs, st', some (vars, some err)⟩
    | .panic => ⟨calls, st, none⟩

/-- Lines 53-92: `func (sp SecretsProvider) ResolveSecrets(ctx, vars)`,
run from the store state `st`. -/
def ResolveSecrets {κ σ ε : Type} (sp : SecretsProvider κ σ ε) (ctx : κ)
    (vars : List Str) (st : σ) : Run σ ε :=
  ResolveSecrets.loop sp ctx vars vars [] [] st

/-- The message of the error of line 40. -/
def initFailedMsg : Str := "failed to initialize Google Cloud SDK".toList

/-- A run of `NewGoogleSecretsProvider`. -/
structure Construction (κ σ ε δ : Type) where
  /-- How many times `metadata.ProjectID()` was called. -/
  discoveries : Nat
  /-- The errors logged at line 34. -/
  logged : List δ
  /-- The returned pair `(secrets.Provider, error)`: the provider, or the error
  next to a nil provider. -/
  ret : Except (Error ε) (SecretsProvider κ σ ε)

/-- Lines 25-43: `func NewGoogleSecretsProvider(ctx, projectID)`. The two library
calls are parameters: `ProjectID` is the pair `(string, error)` that
`metadata.ProjectID()` returns when it is called, and `NewClient ctx` is what
`secretmanager.NewClient(ctx)` returns, a client or an error. -/
def NewGoogleSecretsProvider {κ σ ε δ : Type} (ProjectID : Str × Option δ)
    (NewClient : κ → Except ε (SecretsManagerAPI κ σ ε)) (ctx : κ) (projectID : Str) :
    Construction κ σ ε δ :=
  let found : Str × Nat × List δ :=
    if projectID ≠ [] then (projectID, 0, [])
    else
      match ProjectID with
      | (id, some err) => (id, 1, [err])
      | (id, none) => (id, 1, [])
  match NewClient ctx with
  | .error err => ⟨found.2.1, found.2.2, .error (.Wrap err initFailedMsg)⟩
  | .ok sm => ⟨found.2.1, found.2.2, .ok ⟨sm, found.1⟩⟩

/-- Modelled from the spec: the library function `metadata.ProjectID()`, which is
not part of the repository, as the operation
`discoverAmbientScope() -> string | Error` of the specification. A discovery
that succeeds returns the project id and a nil error; one that fails returns
the empty string next to its error. -/
def metadataProjectID {δ : Type} : Except δ Str → Str × Option δ
  | .ok id => (id, none)
  | .error err => ([], some err)

/-! ## Stores and providers used in the examples -/

/-- A store that holds the given table of names and payloads, never changes, and
answers a name that is not in the table with an error carrying that name. -/
def tableStore (table : List (Str × Str)) : SecretsManagerAPI Unit Unit Str where
  AccessSecretVersion := fun _ name st =>
    match table.lookup name with
    | some payload => (.ok payload, st)
    | none => (.error name, st)

/-- The store of the example of the specification: `hunter2` under
`projects/p1/secrets/db-pass/versions/latest`. -/
def hunterStore : SecretsManagerAPI Unit Unit Str :=
  tableStore [("projects/p1/secrets/db-pass/versions/latest".toList, "hunter2".toList)]

/-- A provider over `hunterStore` with ambient scope `p1`. -/
def hunterProvider : SecretsProvider Unit Unit Str :=
  ⟨hunterStore, "p1".toList⟩

/-- A store that answers every name with that name as payload. -/
def echoStore : SecretsManagerAPI Unit Unit Str where
  AccessSecretVersion := fun _ name st => (.ok name, st)

/-- A provider over `echoStore` with ambient scope `versions`. -/
def versionsProvider : SecretsProvider Unit Unit Str :=
  ⟨echoStore, "versions".toList⟩

/-- A provider over `echoStore` with the given ambient scope. -/
def echoProvider (projectID : Str) : SecretsProvider Unit Unit Str :=
  ⟨echoStore, projectID⟩

/-- A provider with ambient scope `p` over a store that holds the secrets `s1`
and `s2` of project `p` and nothing else. -/
def twoSecretsProvider : SecretsProvider Unit Unit Str :=
  ⟨tableStore [("projects/p/secrets/s1/versions/latest".toList, "v1".toList),
      ("projects/p/secrets/s2/versions/latest".toList, "v2".toList)], "p".toList⟩

/-- Five entries of which the third refers to a secret that `twoSecretsProvider`
does not hold. -/
def fiveEntries : List Str :=
  ["A=gcp:secretmanager:s1".toList, "B=plain".toList, "C=gcp:secretmanager:missing".toList,
    "D=gcp:secretmanager:s2".toList, "E=x".toList]

/-- A store that refuses every request with the same error, `denied`. -/
def denyingStore : SecretsManagerAPI Unit Unit Str where
  AccessSecretVersion := fun _ _ st => (.error "denied".toList, st)

/-- A provider over `denyingStore` with ambient scope `p`. -/
def denyingProvider : SecretsProvider Unit Unit Str :=
  ⟨denyingStore, "p".toList⟩

/-- A client factory that always gives `echoStore`. -/
def echoClient : Unit → Except Str (SecretsManagerAPI Unit Unit Str) :=
  fun _ => .ok echoStore

/-- A client factory that always fails with `no credentials`. -/
def noClient : Unit → Except Str (SecretsManagerAPI Unit Unit Str) :=
  fun _ => .error "no credentials".toList

/-! ## Notions used to state the properties -/

/-- The key of an entry: the text before its first `=`. -/
def keyOf (env : Str) : Str :=
  env.takeWhile (fun c => c != '=')

/-- The value of an entry: the text after its first `=`. -/
def valueOf (env : Str) : Str :=
  (env.dropWhile (fun c => c != '=')).drop 1

/-- The reference that the loop body extracts from an entry (lines 59-63):
the second piece of the split, without the scheme tag, when it carries the
tag; `none` for an entry that is not tagged or has no second piece. -/
def reference (env : Str) : Option Str :=
  match Split env '=' with
  | _ :: value :: _ =>
    if HasPrefix value schemeTag then some (TrimPrefix value schemeTag) else none
  | _ => none

/-- The name after short-form rewriting (lines 65-72, when line 69 is not
taken): a reference classified fully-qualified is kept, any other is put under
the ambient scope `projectID`. -/
def rewritten (projectID name : Str) : Str :=
  if MatchString fullSecretRe name then name else ResolveSecrets.qualified projectID name

/-- The name requested from the store for the reference `name` by a provider
with ambient scope `projectID` (lines 65-77, when line 69 is not taken). -/
def normalisedName (projectID name : Str) : Str :=
  ResolveSecrets.versioned (rewritten projectID name)

/-- The name requested by the call made for the entry `env` of the list
`pre ++ env :: post`: the first call of the pass that comes after the calls of
the pass over `pre` (`none` when there is no such call). -/
def requestFor {κ σ ε : Type} (sp : SecretsProvider κ σ ε) (ctx : κ)
    (pre : List Str) (env : Str) (post : List Str) (st : σ) : Option Str :=
  ((ResolveSecrets sp ctx (pre ++ env :: post) st).calls[
    (ResolveSecrets sp ctx pre st).calls.length]?).map Prod.fst

/-- The calls made by one iteration. -/
def Iter.calls {σ ε : Type} : Iter σ ε → List (Call ε)
  | .append _ cs _ => cs
  | .fail _ cs _ => cs
  | .panic => []

/-- How a pass over a list of entries ends. -/
inductive PassEnd (ε : Type) where
  /-- Every entry was processed; the entries built. -/
  | done : List Str → PassEnd ε
  /-- An iteration returned an error. -/
  | failed : Error ε → PassEnd ε
  /-- An iteration panicked. -/
  | panicked : PassEnd ε

/-- The end of a pass that went on after the entries `envs` had been built. -/
def PassEnd.prepend {ε : Type} (envs : List Str) : PassEnd ε → PassEnd ε
  | .done out => .done (envs ++ out)
  | .failed err => .failed err
  | .panicked => .panicked

/-- The loop without accumulators: the calls made, the final store state and
the way the pass over `entries` ends, started in store state `st`. -/
def pass {κ σ ε : Type} (sp : SecretsProvider κ σ ε) (ctx : κ) :
    List Str → σ → List (Call ε) × σ × PassEnd ε
  | [], st => ([], st, .done [])
  | env :: rest, st =>
    match ResolveSecrets.body sp ctx env st with
    | .append env' cs st' =>
      (cs ++ (pass sp ctx rest st').1, (pass sp ctx rest st').2.1,
        (pass sp ctx rest st').2.2.prepend [env'])
    | .fail err cs st' => (cs, st', .failed err)
    | .panic => ([], st, .panicked)

/-- The value `ResolveSecrets` returns for a pass that ended with `e`. -/
def PassEnd.toRet {ε : Type} (vars envs : List Str) : PassEnd ε →
    Option (List Str × Option (Error ε))
  | .done out => some (envs ++ out, none)
  | .failed err => some (vars, some err)
  | .panicked => none

/-- The strings an expression matches in full: the language of the expression. -/
def Regexp.Matches : Regexp → Str → Prop
  | .noMatch, _ => False
  | .emptyMatch, s => s = []
  | .literal a, s => s = [a]
  | .notIn cs, s => ∃ c, c ∉ cs ∧ s = [c]
  | .concat r₁ r₂, s => ∃ u v, s = u ++ v ∧ Regexp.Matches r₁ u ∧ Regexp.Matches r₂ v
  | .alternate r₁ r₂, s => Regexp.Matches r₁ s ∨ Regexp.Matches r₂ s
  | .star r, s => ∃ L : List Str, s = L.flatten ∧ ∀ y ∈ L, Regexp.Matches r y
  | .plus r, s =>
    ∃ (u : Str) (L : List Str), s = u ++ L.flatten ∧ Regexp.Matches r u ∧
      ∀ y ∈ L, Regexp.Matches r y
  | .quest r, s => s = [] ∨ Regexp.Matches r s

/-- The pattern of `fullSecretRe` without its optional group:
`projects/[^/]+/secrets/[^/+]`. -/
def fullSecretReNoGroup : Regexp :=
  .concat (.str "projects/".toList)
    (.concat (.plus (.notIn ['/']))
      (.concat (.str "/secrets/".toList) notSlashPlus))

end SecretsInit

namespace SecretsInit

/-! ## Splitting an entry -/

theorem keyOf_of_not_mem {s : Str} (h : '=' ∉ s) : keyOf s = s := by
  induction s with
  | nil => rfl
  | cons c cs ih =>
    have hc : c ≠ '=' := fun e => h (by simp [e])
    have hcs : '=' ∉ cs := fun m => h (List.mem_cons_of_mem _ m)
    have ih' := ih hcs
    simp only [keyOf] at ih' ⊢
    simp [List.takeWhile_cons, hc, ih']

theorem keyOf_not_mem (s : Str) : '=' ∉ keyOf s := by
  intro h
  have := List.mem_takeWhile_imp h
  simp at this

theorem keyOf_append_eq (k v : Str) (hk : '=' ∉ k) : keyOf (k ++ '=' :: v) = k := by
  induction k with
  | nil => simp [keyOf, List.takeWhile]
  | cons c cs ih =>
    have hc : c ≠ '=' := fun e => hk (by simp [e])
    have hcs : '=' ∉ cs := fun m => hk (List.mem_cons_of_mem _ m)
    have ih' := ih hcs
    simp only [keyOf] at ih' ⊢
    simp [List.takeWhile_cons, hc, ih']

theorem valueOf_append_eq (k v : Str) (hk : '=' ∉ k) : valueOf (k ++ '=' :: v) = v := by
  induction k with
  | nil => simp [valueOf, List.dropWhile]
  | cons c cs ih =>
    have hc : c ≠ '=' := fun e => hk (by simp [e])
    have hcs : '=' ∉ cs := fun m => hk (List.mem_cons_of_mem _ m)
    have ih' := ih hcs
    simp only [valueOf] at ih' ⊢
    simpa [List.dropWhile_cons, hc] using ih'

theorem eq_key_value_of_mem {s : Str} (h : '=' ∈ s) : s = keyOf s ++ '=' :: valueOf s := by
  induction s with
  | nil => simp at h
  | cons c cs ih =>
    by_cases hc : c = '='
    · subst hc
      simp [keyOf, valueOf, List.takeWhile, List.dropWhile]
    · have hcs : '=' ∈ cs := by
        rcases List.mem_cons.1 h with e | m
        · exact absurd e.symm hc
        · exact m
      have ih' := ih hcs
      simp only [keyOf, valueOf] at ih' ⊢
      simpa [List.takeWhile_cons, List.dropWhile_cons, hc] using ih'

theorem Split_ne_nil (s : Str) (sep : Char) : Split s sep ≠ [] := by
  cases s with
  | nil => simp [Split]
  | cons c cs =>
    simp only [Split]
    split
    · simp
    · split <;> simp

theorem Split_of_not_mem {s : Str} (h : '=' ∉ s) : Split s '=' = [s] := by
  induction s with
  | nil => rfl
  | cons c cs ih =>
    have hc : c ≠ '=' := fun e => h (by simp [e])
    have hcs : '=' ∉ cs := fun m => h (List.mem_cons_of_mem _ m)
    simp [Split, hc, ih hcs]

theorem Split_append_eq (k v : Str) (hk : '=' ∉ k) :
    Split (k ++ '=' :: v) '=' = k :: Split v '=' := by
  induction k with
  | nil => simp [Split]
  | cons c cs ih =>
    have hc : c ≠ '=' := fun e => hk (by simp [e])
    have hcs : '=' ∉ cs := fun m => hk (List.mem_cons_of_mem _ m)
    simp [Split, hc, ih hcs]

theorem Split_head (s : Str) : ∃ rest, Split s '=' = keyOf s :: rest := by
  by_cases h : '=' ∈ s
  · refine ⟨Split (valueOf s) '=', ?_⟩
    conv_lhs => rw [eq_key_value_of_mem h]
    exact Split_append_eq _ _ (keyOf_not_mem s)
  · exact ⟨[], by rw [Split_of_not_mem h, keyOf_of_not_mem h]⟩

/-- The pieces of an entry that holds `=`: its key, then the text of its value up
to the next `=`, then the later pieces. -/
theorem Split_of_mem {s : Str} (h : '=' ∈ s) :
    ∃ rest, Split s '=' = keyOf s :: keyOf (valueOf s) :: rest := by
  obtain ⟨rest, hr⟩ := Split_head (valueOf s)
  refine ⟨rest, ?_⟩
  conv_lhs => rw [eq_key_value_of_mem h]
  rw [Split_append_eq _ _ (keyOf_not_mem s), hr]

theorem isPrefixOf_takeWhile (P : Char → Bool) (p v : Str) (hp : ∀ c ∈ p, P c = true) :
    p.isPrefixOf (v.takeWhile P) = p.isPrefixOf v := by
  induction p generalizing v with
  | nil => simp [List.isPrefixOf]
  | cons a p ih =>
    cases v with
    | nil => simp [List.isPrefixOf]
    | cons b v =>
      by_cases hb : P b = true
      · have hp' : ∀ c ∈ p, P c = true := fun c hc => hp c (List.mem_cons_of_mem _ hc)
        simp [List.takeWhile_cons, hb, List.isPrefixOf, ih v hp']
      · have ha : P a = true := hp a (by simp)
        have hab : a ≠ b := fun e => hb (e ▸ ha)
        simp [List.takeWhile_cons, hb, List.isPrefixOf, hab]

theorem schemeTag_no_eq : ∀ c ∈ schemeTag, (c != '=') = true := by
  decide

/-- The piece tested for the tag carries it exactly when the whole value does. -/
theorem HasPrefix_keyOf_schemeTag (v : Str) :
    HasPrefix (keyOf v) schemeTag = HasPrefix v schemeTag := by
  simp only [HasPrefix, keyOf]
  exact isPrefixOf_takeWhile _ _ _ schemeTag_no_eq

theorem HasPrefix_append (p s : Str) : HasPrefix (p ++ s) p = true := by
  induction p with
  | nil => simp [HasPrefix, List.isPrefixOf]
  | cons a p ih =>
    simp only [HasPrefix] at ih
    simp [HasPrefix, List.isPrefixOf, ih]

theorem TrimPrefix_append (p s : Str) : TrimPrefix (p ++ s) p = s := by
  simp [TrimPrefix, HasPrefix_append]

/-! ## The loop and the accumulator-free pass -/

theorem loop_eq_pass {κ σ ε : Type} (sp : SecretsProvider κ σ ε) (ctx : κ) (vars : List Str)
    (rest envs : List Str) (calls : List (Call ε)) (st : σ) :
    ResolveSecrets.loop sp ctx vars rest envs calls st =
      ⟨calls ++ (pass sp ctx rest st).1, (pass sp ctx rest st).2.1,
        (pass sp ctx rest st).2.2.toRet vars envs⟩ := by
  induction rest generalizing envs calls st with
  | nil => simp [ResolveSecrets.loop, pass, PassEnd.toRet]
  | cons env rest ih =>
    simp only [ResolveSecrets.loop, pass]
    cases hb : ResolveSecrets.body sp ctx env st with
    | append env' cs st' =>
      simp only [ih]
      cases (pass sp ctx rest st').2.2 <;> simp [PassEnd.toRet, PassEnd.prepend]
    | fail err cs st' => simp [PassEnd.toRet]
    | panic => simp [PassEnd.toRet]

theorem resolve_eq_pass {κ σ ε : Type} (sp : SecretsProvider κ σ ε) (ctx : κ) (vars : List Str)
    (st : σ) :
    ResolveSecrets sp ctx vars st =
      ⟨(pass sp ctx vars st).1, (pass sp ctx vars st).2.1,
        (pass sp ctx vars st).2.2.toRet vars []⟩ := by
  simp [ResolveSecrets, loop_eq_pass]

end SecretsInit

namespace SecretsInit

/-! ## One iteration -/

theorem body_of_not_mem {κ σ ε : Type} (sp : SecretsProvider κ σ ε) (ctx : κ) (st : σ)
    {env : Str} (h : '=' ∉ env) : ResolveSecrets.body sp ctx env st = .panic := by
  simp [ResolveSecrets.body, Split_of_not_mem h]

theorem body_of_mem {κ σ ε : Type} (sp : SecretsProvider κ σ ε) (ctx : κ) (st : σ)
    {env : Str} (h : '=' ∈ env) :
    ResolveSecrets.body sp ctx env st =
      if HasPrefix (valueOf env) schemeTag then
        if MatchString fullSecretRe (TrimPrefix (keyOf (valueOf env)) schemeTag) then
          ResolveSecrets.access sp ctx (keyOf env)
            (TrimPrefix (keyOf (valueOf env)) schemeTag) st
        else if sp.projectID = [] then
          .fail (.Errorf (unknownProjectMsg (TrimPrefix (keyOf (valueOf env)) schemeTag))) [] st
        else
          ResolveSecrets.access sp ctx (keyOf env)
            (ResolveSecrets.qualified sp.projectID
              (TrimPrefix (keyOf (valueOf env)) schemeTag)) st
      else .append env [] st := by
  obtain ⟨rest, hr⟩ := Split_of_mem h
  simp only [ResolveSecrets.body, hr, HasPrefix_keyOf_schemeTag]
  by_cases ht : HasPrefix (valueOf env) schemeTag = true
  · by_cases hl : MatchString fullSecretRe (TrimPrefix (keyOf (valueOf env)) schemeTag) = true
    · simp [ht, hl]
    · simp [ht, hl]
  · simp [ht]

/-- An iteration that appends an entry appends one with the key of the entry it
read. -/
theorem body_append_key {κ σ ε : Type} (sp : SecretsProvider κ σ ε) (ctx : κ) (st st' : σ)
    (env env' : Str) (cs : List (Call ε))
    (h : ResolveSecrets.body sp ctx env st = .append env' cs st') :
    '=' ∈ env ∧ keyOf env' = keyOf env := by
  by_cases hm : '=' ∈ env
  · refine ⟨hm, ?_⟩
    rw [body_of_mem sp ctx st hm] at h
    have hacc : ∀ name, ResolveSecrets.access sp ctx (keyOf env) name st = .append env' cs st' →
        keyOf env' = keyOf env := by
      intro name ha
      simp only [ResolveSecrets.access] at ha
      split at ha
      · cases ha
      · cases ha
        simpa using keyOf_append_eq (keyOf env) _ (keyOf_not_mem env)
    split at h
    · split at h
      · exact hacc _ h
      · split at h
        · cases h
        · exact hacc _ h
    · cases h
      rfl
  · rw [body_of_not_mem sp ctx st hm] at h
    cases h

/-- An iteration over an entry whose value does not carry the tag appends the
entry itself. -/
theorem body_append_untagged {κ σ ε : Type} (sp : SecretsProvider κ σ ε) (ctx : κ)
    (st st' : σ) (env env' : Str) (cs : List (Call ε))
    (h : ResolveSecrets.body sp ctx env st = .append env' cs st')
    (hv : HasPrefix (valueOf env) schemeTag = false) : env' = env := by
  have hm := (body_append_key sp ctx st st' env env' cs h).1
  rw [body_of_mem sp ctx st hm] at h
  simp only [hv] at h
  cases h
  rfl

/-! ## Passes that end well -/

theorem ret_ok_iff {κ σ ε : Type} (sp : SecretsProvider κ σ ε) (ctx : κ) (vars out : List Str)
    (st : σ) :
    (ResolveSecrets sp ctx vars st).ret = some (out, none) ↔
      (pass sp ctx vars st).2.2 = .done out := by
  rw [resolve_eq_pass]
  cases h : (pass sp ctx vars st).2.2 <;> simp [PassEnd.toRet]

theorem prepend_eq_done {ε : Type} (envs out : List Str) (e : PassEnd ε)
    (h : e.prepend envs = .done out) : ∃ out', e = .done out' ∧ out = envs ++ out' := by
  cases e with
  | done o =>
    simp only [PassEnd.prepend, PassEnd.done.injEq] at h
    exact ⟨o, rfl, h.symm⟩
  | failed err => simp [PassEnd.prepend] at h
  | panicked => simp [PassEnd.prepend] at h

theorem pass_cons_done {κ σ ε : Type} (sp : SecretsProvider κ σ ε) (ctx : κ) (env : Str)
    (rest out : List Str) (st : σ) (h : (pass sp ctx (env :: rest) st).2.2 = .done out) :
    ∃ env' cs st' out', ResolveSecrets.body sp ctx env st = .append env' cs st' ∧
      (pass sp ctx rest st').2.2 = .done out' ∧ out = env' :: out' ∧
      (pass sp ctx (env :: rest) st).1 = cs ++ (pass sp ctx rest st').1 ∧
      (pass sp ctx (env :: rest) st).2.1 = (pass sp ctx rest st').2.1 := by
  simp only [pass] at h ⊢
  cases hb : ResolveSecrets.body sp ctx env st with
  | append env' cs st' =>
    simp only [hb] at h ⊢
    obtain ⟨o, ho, hout⟩ := prepend_eq_done _ _ _ h
    exact ⟨env', cs, st', o, rfl, ho, by simpa using hout, rfl, rfl⟩
  | fail err cs st' => simp [hb] at h
  | panic => simp [hb] at h

theorem prepend_nil {ε : Type} (e : PassEnd ε) : e.prepend [] = e := by
  cases e <;> simp [PassEnd.prepend]

theorem prepend_prepend {ε : Type} (xs ys : List Str) (e : PassEnd ε) :
    (e.prepend ys).prepend xs = e.prepend (xs ++ ys) := by
  cases e <;> simp [PassEnd.prepend]

theorem pass_cons_append {κ σ ε : Type} (sp : SecretsProvider κ σ ε) (ctx : κ) (env : Str)
    (rest : List Str) (st st' : σ) (env' : Str) (cs : List (Call ε))
    (hb : ResolveSecrets.body sp ctx env st = .append env' cs st') :
    pass sp ctx (env :: rest) st =
      (cs ++ (pass sp ctx rest st').1, (pass sp ctx rest st').2.1,
        (pass sp ctx rest st').2.2.prepend [env']) := by
  simp only [pass, hb]

/-- A pass over `xs ++ ys` when the pass over `xs` ends well: the pass over `ys`
goes on from the store state it left. -/
theorem pass_append_of_done {κ σ ε : Type} (sp : SecretsProvider κ σ ε) (ctx : κ)
    (xs ys out : List Str) (st : σ) (h : (pass sp ctx xs st).2.2 = .done out) :
    pass sp ctx (xs ++ ys) st =
      ((pass sp ctx xs st).1 ++ (pass sp ctx ys (pass sp ctx xs st).2.1).1,
        (pass sp ctx ys (pass sp ctx xs st).2.1).2.1,
        (pass sp ctx ys (pass sp ctx xs st).2.1).2.2.prepend out) := by
  induction xs generalizing st out with
  | nil =>
    simp only [pass, PassEnd.done.injEq] at h
    subst h
    simp [pass, prepend_nil]
  | cons x xs ih =>
    obtain ⟨env', cs, st', out', hb, hp, ho, hc, hs⟩ := pass_cons_done sp ctx x xs out st h
    rw [List.cons_append, pass_cons_append sp ctx x (xs ++ ys) st st' env' cs hb,
      ih out' st' hp, hc, hs, ho, prepend_prepend]
    simp

/-- A pass over `xs ++ ys` when the pass over `xs` does not end well: `ys` is not
looked at. -/
theorem pass_append_of_not_done {κ σ ε : Type} (sp : SecretsProvider κ σ ε) (ctx : κ)
    (xs ys : List Str) (st : σ) (h : ∀ out, (pass sp ctx xs st).2.2 ≠ .done out) :
    pass sp ctx (xs ++ ys) st = pass sp ctx xs st := by
  induction xs generalizing st with
  | nil => exact absurd rfl (h [])
  | cons x xs ih =>
    cases hb : ResolveSecrets.body sp ctx x st with
    | append env' cs st' =>
      have hx : ∀ out, (pass sp ctx xs st').2.2 ≠ .done out := by
        intro out ho
        apply h (env' :: out)
        rw [pass_cons_append sp ctx x xs st st' env' cs hb]
        simp [ho, PassEnd.prepend]
      rw [List.cons_append, pass_cons_append sp ctx x (xs ++ ys) st st' env' cs hb,
        pass_cons_append sp ctx x xs st st' env' cs hb, ih st' hx]
    | fail err cs st' => simp [pass, hb]
    | panic => simp [pass, hb]

/-- In a pass that ends well every output entry was appended by the iteration
over the input entry of the same index. -/
theorem pass_done_index {κ σ ε : Type} (sp : SecretsProvider κ σ ε) (ctx : κ)
    (vars out : List Str) (st : σ) (h : (pass sp ctx vars st).2.2 = .done out) :
    out.length = vars.length ∧
    ∀ (i : Nat) (env : Str), vars[i]? = some env →
      ∃ (env' : Str) (st₁ : σ) (cs : List (Call ε)) (st₂ : σ), out[i]? = some env' ∧
        ResolveSecrets.body sp ctx env st₁ = .append env' cs st₂ := by
  induction vars generalizing out st with
  | nil =>
    simp only [pass, PassEnd.done.injEq] at h
    subst h
    simp
  | cons e rest ih =>
    obtain ⟨env', cs, st', out', hb, hp, ho, -, -⟩ := pass_cons_done sp ctx e rest out st h
    subst ho
    obtain ⟨hl, hi⟩ := ih out' st' hp
    refine ⟨by simp [hl], ?_⟩
    intro i env hi'
    cases i with
    | zero =>
      simp only [List.getElem?_cons_zero, Option.some.injEq] at hi'
      subst hi'
      exact ⟨env', st, cs, st', by simp, hb⟩
    | succ j =>
      simp only [List.getElem?_cons_succ] at hi' ⊢
      exact hi j env hi'

end SecretsInit

namespace SecretsInit

/-! ## Passthrough, order and length -/

/-- C1 (passthrough): whenever `ResolveSecrets` succeeds with output `out`, every
input entry whose value (the text after its first `=`) does not start with
`gcp:secretmanager:` stands unchanged at the same index of `out`, for every
provider, store and store state; the value may itself contain `=`. (A pass that
succeeds has only entries with `=`, so that needs no hypothesis.) -/
theorem passthrough_unchanged {κ σ ε : Type} (sp : SecretsProvider κ σ ε) (ctx : κ)
    (vars out : List Str) (st : σ)
    (hok : (ResolveSecrets sp ctx vars st).ret = some (out, none))
    (i : Nat) (env : Str) (hi : vars[i]? = some env)
    (hv : HasPrefix (valueOf env) schemeTag = false) :
    out[i]? = some env := by
  obtain ⟨-, hidx⟩ := pass_done_index sp ctx vars out st ((ret_ok_iff sp ctx vars out st).1 hok)
  obtain ⟨env', st₁, cs, st₂, ho, hb⟩ := hidx i env hi
  rw [ho, body_append_untagged sp ctx st₁ st₂ env env' cs hb hv]

/-- Witness of C1: in `[A=B=C, DB_PASS=gcp:secretmanager:db-pass]` the entry
`A=B=C` is left as it is. -/
theorem passthrough_unchanged_witness :
    (ResolveSecrets hunterProvider ()
        ["A=B=C".toList, "DB_PASS=gcp:secretmanager:db-pass".toList] ()).ret =
      some (["A=B=C".toList, "DB_PASS=hunter2".toList], none) ∧
    HasPrefix (valueOf "A=B=C".toList) schemeTag = false ∧
    ["A=B=C".toList, "DB_PASS=hunter2".toList][0]? = some "A=B=C".toList :=
  ⟨by decide, by decide,
    passthrough_unchanged hunterProvider ()
      ["A=B=C".toList, "DB_PASS=gcp:secretmanager:db-pass".toList]
      ["A=B=C".toList, "DB_PASS=hunter2".toList] () (by decide) 0 "A=B=C".toList
      (by decide) (by decide)⟩

/-- C2 (order and length preservation): whenever `ResolveSecrets` succeeds with
output `out`, `out` is as long as the input, and at every index the key of the
output entry (the text before its first `=`) is the key of the input entry. -/
theorem order_length_preserved {κ σ ε : Type} (sp : SecretsProvider κ σ ε) (ctx : κ)
    (vars out : List Str) (st : σ)
    (hok : (ResolveSecrets sp ctx vars st).ret = some (out, none)) :
    out.length = vars.length ∧
    ∀ i : Nat, (out[i]?).map keyOf = (vars[i]?).map keyOf := by
  obtain ⟨hlen, hidx⟩ :=
    pass_done_index sp ctx vars out st ((ret_ok_iff sp ctx vars out st).1 hok)
  refine ⟨hlen, fun i => ?_⟩
  cases hv : vars[i]? with
  | none =>
    have hge : vars.length ≤ i := List.getElem?_eq_none_iff.1 hv
    have ho : out[i]? = none := List.getElem?_eq_none_iff.2 (hlen ▸ hge)
    simp [ho]
  | some env =>
    obtain ⟨env', st₁, cs, st₂, ho, hb⟩ := hidx i env hv
    simp [ho, (body_append_key sp ctx st₁ st₂ env env' cs hb).2]

/-- Witness of C2: two entries in, two entries out, with the keys `A` and
`DB_PASS` in that order. -/
theorem order_length_preserved_witness :
    (ResolveSecrets hunterProvider ()
        ["A=B=C".toList, "DB_PASS=gcp:secretmanager:db-pass".toList] ()).ret =
      some (["A=B=C".toList, "DB_PASS=hunter2".toList], none) ∧
    (["A=B=C".toList, "DB_PASS=hunter2".toList].length =
        ["A=B=C".toList, "DB_PASS=gcp:secretmanager:db-pass".toList].length ∧
      ∀ i : Nat, (["A=B=C".toList, "DB_PASS=hunter2".toList][i]?).map keyOf =
        (["A=B=C".toList, "DB_PASS=gcp:secretmanager:db-pass".toList][i]?).map keyOf) :=
  ⟨by decide,
    order_length_preserved hunterProvider ()
      ["A=B=C".toList, "DB_PASS=gcp:secretmanager:db-pass".toList]
      ["A=B=C".toList, "DB_PASS=hunter2".toList] () (by decide)⟩

end SecretsInit

namespace SecretsInit

/-! ## Tagged entries -/

theorem not_mem_schemeTag_append {R : Str} (hR : '=' ∉ R) : '=' ∉ schemeTag ++ R := by
  intro h
  rcases List.mem_append.1 h with h | h
  · have := schemeTag_no_eq _ h
    simp at this
  · exact hR h

/-- The iteration over `K=gcp:secretmanager:R`, with no `=` in `K` and `R`. -/
theorem body_tagged {κ σ ε : Type} (sp : SecretsProvider κ σ ε) (ctx : κ) (st : σ)
    (K R : Str) (hK : '=' ∉ K) (hR : '=' ∉ R) :
    ResolveSecrets.body sp ctx (K ++ '=' :: (schemeTag ++ R)) st =
      if MatchString fullSecretRe R then ResolveSecrets.access sp ctx K R st
      else if sp.projectID = [] then .fail (.Errorf (unknownProjectMsg R)) [] st
      else ResolveSecrets.access sp ctx K (ResolveSecrets.qualified sp.projectID R) st := by
  have hm : '=' ∈ K ++ '=' :: (schemeTag ++ R) := by simp
  rw [body_of_mem sp ctx st hm, keyOf_append_eq K _ hK, valueOf_append_eq K _ hK,
    keyOf_of_not_mem (not_mem_schemeTag_append hR), HasPrefix_append, TrimPrefix_append]
  simp

/-- When that iteration makes a call, the name requested is the normalised name
of `R`. -/
theorem body_tagged_access {κ σ ε : Type} (sp : SecretsProvider κ σ ε) (ctx : κ) (st : σ)
    (K R : Str) (hK : '=' ∉ K) (hR : '=' ∉ R)
    (hs : MatchString fullSecretRe R = true ∨ sp.projectID ≠ []) :
    ResolveSecrets.body sp ctx (K ++ '=' :: (schemeTag ++ R)) st =
      match sp.sm.AccessSecretVersion ctx (normalisedName sp.projectID R) st with
      | (.error err, st') =>
        .fail (.Wrap err fetchFailedMsg) [(normalisedName sp.projectID R, .error err)] st'
      | (.ok payload, st') =>
        .append (K ++ '=' :: payload) [(normalisedName sp.projectID R, .ok payload)] st' := by
  rw [body_tagged sp ctx st K R hK hR]
  by_cases hl : MatchString fullSecretRe R = true
  · simp only [hl, if_true, ResolveSecrets.access, normalisedName, rewritten]
    split <;> simp_all
  · have hp : sp.projectID ≠ [] := hs.resolve_left hl
    simp only [hl, hp, if_false, ResolveSecrets.access, normalisedName, rewritten]
    split <;> simp_all

/-- When that iteration appends an entry, the entry is `K=payload` for the
payload the store gave for the normalised name of `R`. -/
theorem body_tagged_append {κ σ ε : Type} (sp : SecretsProvider κ σ ε) (ctx : κ) (st st' : σ)
    (K R env' : Str) (cs : List (Call ε)) (hK : '=' ∉ K) (hR : '=' ∉ R)
    (h : ResolveSecrets.body sp ctx (K ++ '=' :: (schemeTag ++ R)) st = .append env' cs st') :
    ∃ payload, sp.sm.AccessSecretVersion ctx (normalisedName sp.projectID R) st =
        (.ok payload, st') ∧
      env' = K ++ '=' :: payload ∧ cs = [(normalisedName sp.projectID R, .ok payload)] := by
  have hs : MatchString fullSecretRe R = true ∨ sp.projectID ≠ [] := by
    by_contra hc
    push_neg at hc
    rw [body_tagged sp ctx st K R hK hR] at h
    simp [hc.1, hc.2] at h
  rw [body_tagged_access sp ctx st K R hK hR hs] at h
  rcases hr : sp.sm.AccessSecretVersion ctx (normalisedName sp.projectID R) st with ⟨r, s⟩
  rw [hr] at h
  cases r with
  | error err => simp at h
  | ok payload =>
    simp only [Iter.append.injEq] at h
    exact ⟨payload, by rw [h.2.2], h.1.symm, h.2.1.symm⟩

/-- A pass over `pre ++ env :: post` that ends well: the pass over `pre` ends
well, the iteration over `env` appends an entry at index `pre.length`, and its
calls follow those of `pre`. -/
theorem pass_split_done {κ σ ε : Type} (sp : SecretsProvider κ σ ε) (ctx : κ)
    (pre post out : List Str) (env : Str) (st : σ)
    (h : (pass sp ctx (pre ++ env :: post) st).2.2 = .done out) :
    ∃ (outPre : List Str) (env' : Str) (cs : List (Call ε)) (st' : σ) (outPost : List Str),
      (pass sp ctx pre st).2.2 = .done outPre ∧
      ResolveSecrets.body sp ctx env (pass sp ctx pre st).2.1 = .append env' cs st' ∧
      out = outPre ++ env' :: outPost ∧ outPre.length = pre.length ∧
      (pass sp ctx (pre ++ env :: post) st).1 =
        (pass sp ctx pre st).1 ++ (cs ++ (pass sp ctx post st').1) := by
  cases hpre : (pass sp ctx pre st).2.2 with
  | done o =>
    rw [pass_append_of_done sp ctx pre (env :: post) o st hpre] at h ⊢
    obtain ⟨o', ho', hout⟩ := prepend_eq_done _ _ _ h
    obtain ⟨env', cs, st', out', hb, -, hoo, hc, -⟩ :=
      pass_cons_done sp ctx env post o' _ ho'
    refine ⟨o, env', cs, st', out', rfl, hb, by rw [hout, hoo], ?_, by rw [hc]⟩
    exact (pass_done_index sp ctx pre o st hpre).1
  | failed err =>
    rw [pass_append_of_not_done sp ctx pre (env :: post) st (by simp [hpre]), hpre] at h
    cases h
  | panicked =>
    rw [pass_append_of_not_done sp ctx pre (env :: post) st (by simp [hpre]), hpre] at h
    cases h

/-! ## Fetch propagation -/

/-- C3 (fetch propagation): in a successful pass, an entry
`K=gcp:secretmanager:R` (no `=` in `K` and `R`) standing at index `pre.length`
gives at that index the entry `K=payload`, where `payload` is what the store,
in the state reached after the entries before it, answered for the normalised
name of `R`; the payload is not altered, and the call is among those recorded. -/
theorem fetch_propagation {κ σ ε : Type} (sp : SecretsProvider κ σ ε) (ctx : κ)
    (pre post out : List Str) (K R : Str) (st : σ) (hK : '=' ∉ K) (hR : '=' ∉ R)
    (hok : (ResolveSecrets sp ctx (pre ++ (K ++ '=' :: (schemeTag ++ R)) :: post) st).ret =
      some (out, none)) :
    ∃ payload : Str,
      (sp.sm.AccessSecretVersion ctx (normalisedName sp.projectID R)
        (ResolveSecrets sp ctx pre st).store).1 = .ok payload ∧
      out[pre.length]? = some (K ++ '=' :: payload) ∧
      (normalisedName sp.projectID R, .ok payload) ∈
        (ResolveSecrets sp ctx (pre ++ (K ++ '=' :: (schemeTag ++ R)) :: post) st).calls := by
  obtain ⟨outPre, env', cs, st', outPost, -, hb, hout, hlen, hcalls⟩ :=
    pass_split_done sp ctx pre post out _ st ((ret_ok_iff _ _ _ _ _).1 hok)
  obtain ⟨payload, hacc, henv, hcs⟩ := body_tagged_append sp ctx _ st' K R env' cs hK hR hb
  refine ⟨payload, ?_, ?_, ?_⟩
  · simp only [resolve_eq_pass, hacc]
  · rw [hout, ← hlen, henv]
    rw [List.getElem?_append_right (le_refl _)]
    simp
  · simp only [resolve_eq_pass, hcalls, hcs]
    simp

/-- Witness of C3: with ambient scope `p1` and a store holding `hunter2` under
`projects/p1/secrets/db-pass/versions/latest`, the list
`[DB_PASS=gcp:secretmanager:db-pass]` resolves to `[DB_PASS=hunter2]`. -/
theorem fetch_propagation_witness :
    (ResolveSecrets hunterProvider () ["DB_PASS=gcp:secretmanager:db-pass".toList] ()).ret =
      some (["DB_PASS=hunter2".toList], none) ∧
    normalisedName hunterProvider.projectID "db-pass".toList =
      "projects/p1/secrets/db-pass/versions/latest".toList ∧
    ∃ payload : Str,
      (hunterProvider.sm.AccessSecretVersion () (normalisedName hunterProvider.projectID
        "db-pass".toList) (ResolveSecrets hunterProvider () [] ()).store).1 = .ok payload ∧
      ["DB_PASS=hunter2".toList][([] : List Str).length]? =
        some ("DB_PASS".toList ++ '=' :: payload) ∧
      (normalisedName hunterProvider.projectID "db-pass".toList, .ok payload) ∈
        (ResolveSecrets hunterProvider ()
          ([] ++ ("DB_PASS".toList ++ '=' :: (schemeTag ++ "db-pass".toList)) :: []) ()).calls :=
  ⟨by decide, by decide,
    fetch_propagation hunterProvider () [] [] ["DB_PASS=hunter2".toList]
      "DB_PASS".toList "db-pass".toList () (by decide) (by decide) (by decide)⟩

end SecretsInit

namespace SecretsInit

/-! ## The call made for an entry -/

theorem pass_cons_calls {κ σ ε : Type} (sp : SecretsProvider κ σ ε) (ctx : κ) (env : Str)
    (rest : List Str) (st : σ) :
    ∃ later, (pass sp ctx (env :: rest) st).1 =
      (ResolveSecrets.body sp ctx env st).calls ++ later := by
  cases hb : ResolveSecrets.body sp ctx env st with
  | append env' cs st' => exact ⟨(pass sp ctx rest st').1, by simp [pass, hb, Iter.calls]⟩
  | fail err cs st' => exact ⟨[], by simp [pass, hb, Iter.calls]⟩
  | panic => exact ⟨[], by simp [pass, hb, Iter.calls]⟩

/-- After a pass over `pre` that ends well, the call for a tagged entry that can
be named asks for its normalised name, in the store state left by `pre`. -/
theorem requestFor_tagged {κ σ ε : Type} (sp : SecretsProvider κ σ ε) (ctx : κ)
    (pre post outPre : List Str) (K R : Str) (st : σ) (hK : '=' ∉ K) (hR : '=' ∉ R)
    (hs : MatchString fullSecretRe R = true ∨ sp.projectID ≠ [])
    (hpre : (ResolveSecrets sp ctx pre st).ret = some (outPre, none)) :
    requestFor sp ctx pre (K ++ '=' :: (schemeTag ++ R)) post st =
      some (normalisedName sp.projectID R) := by
  have hd := (ret_ok_iff sp ctx pre outPre st).1 hpre
  obtain ⟨later, hl⟩ :=
    pass_cons_calls sp ctx (K ++ '=' :: (schemeTag ++ R)) post (pass sp ctx pre st).2.1
  have hc : (ResolveSecrets.body sp ctx (K ++ '=' :: (schemeTag ++ R))
      (pass sp ctx pre st).2.1).calls =
      [(normalisedName sp.projectID R,
        (sp.sm.AccessSecretVersion ctx (normalisedName sp.projectID R)
          (pass sp ctx pre st).2.1).1)] := by
    rw [body_tagged_access sp ctx _ K R hK hR hs]
    rcases hr : sp.sm.AccessSecretVersion ctx (normalisedName sp.projectID R)
      (pass sp ctx pre st).2.1 with ⟨r, s⟩
    cases r <;> simp [Iter.calls]
  simp only [requestFor, resolve_eq_pass, pass_append_of_done sp ctx pre _ outPre st hd, hl, hc]
  rw [List.getElem?_append_right (le_refl _)]
  simp

/-! ## Version defaulting -/

/-- C4, the code at the failing input: with ambient scope `versions` the
short-form reference `gcp:secretmanager:secretA` (no `=`, not classified
fully-qualified, no `/versions/` in it) is requested as
`projects/versions/secrets/secretA`, without `/versions/latest`: line 75 finds
`/versions/` in the scope part of the rewritten name. -/
theorem version_defaulting_scope_versions :
    versionsProvider.projectID ≠ [] ∧ '=' ∉ "secretA".toList ∧
    MatchString fullSecretRe "secretA".toList = false ∧
    Contains "secretA".toList "/versions/".toList = false ∧
    (ResolveSecrets versionsProvider () ["X=gcp:secretmanager:secretA".toList] ()).calls.map
      Prod.fst = ["projects/versions/secrets/secretA".toList] ∧
    "projects/versions/secrets/secretA".toList ≠
      "projects/versions/secrets/secretA/versions/latest".toList := by
  decide

/-- Version defaulting as the code does it: a short-form reference `s` is
requested as `projects/p/secrets/s/versions/latest` when the rewritten name
`projects/p/secrets/s` holds no `/versions/`. -/
theorem normalisedName_short (p s : Str) (hshort : MatchString fullSecretRe s = false)
    (hv : Contains ("projects/".toList ++ p ++ "/secrets/".toList ++ s) "/versions/".toList =
      false) :
    normalisedName p s =
      "projects/".toList ++ p ++ "/secrets/".toList ++ s ++ "/versions/latest".toList := by
  simp only [normalisedName, rewritten, hshort, ResolveSecrets.versioned,
    ResolveSecrets.qualified,
    Bool.false_eq_true, if_false, hv, Bool.not_false, if_true]

/-! ## Fully-qualified references and the ambient scope -/

theorem body_reference_some {κ σ ε : Type} (sp : SecretsProvider κ σ ε) (ctx : κ) (st : σ)
    (env name : Str) (h : reference env = some name) :
    '=' ∈ env ∧ ResolveSecrets.body sp ctx env st =
      if MatchString fullSecretRe name then ResolveSecrets.access sp ctx (keyOf env) name st
      else if sp.projectID = [] then .fail (.Errorf (unknownProjectMsg name)) [] st
      else ResolveSecrets.access sp ctx (keyOf env)
        (ResolveSecrets.qualified sp.projectID name) st := by
  have hm : '=' ∈ env := by
    by_contra hc
    simp [reference, Split_of_not_mem hc] at h
  refine ⟨hm, ?_⟩
  obtain ⟨rest, hr⟩ := Split_of_mem hm
  simp only [reference, hr] at h
  split at h
  · rename_i ht
    simp only [Option.some.injEq] at h
    rw [HasPrefix_keyOf_schemeTag] at ht
    rw [body_of_mem sp ctx st hm, h]
    simp [ht]
  · cases h

theorem body_reference_none {κ σ ε : Type} (sp : SecretsProvider κ σ ε) (ctx : κ) (st : σ)
    (env : Str) (hm : '=' ∈ env) (h : reference env = none) :
    ResolveSecrets.body sp ctx env st = .append env [] st := by
  obtain ⟨rest, hr⟩ := Split_of_mem hm
  simp only [reference, hr] at h
  split at h
  · cases h
  · rename_i ht
    rw [HasPrefix_keyOf_schemeTag] at ht
    rw [body_of_mem sp ctx st hm]
    simp [ht]

end SecretsInit

namespace SecretsInit

theorem access_congr {κ σ ε : Type} (sp₁ sp₂ : SecretsProvider κ σ ε)
    (hsm : sp₁.sm = sp₂.sm) (ctx : κ) (key name : Str) (st : σ) :
    ResolveSecrets.access sp₁ ctx key name st = ResolveSecrets.access sp₂ ctx key name st := by
  simp only [ResolveSecrets.access, hsm]

theorem body_scope_independent {κ σ ε : Type} (sp₁ sp₂ : SecretsProvider κ σ ε)
    (hsm : sp₁.sm = sp₂.sm) (ctx : κ) (env : Str) (st : σ)
    (hfull : ∀ name ∈ reference env, MatchString fullSecretRe name = true) :
    ResolveSecrets.body sp₁ ctx env st = ResolveSecrets.body sp₂ ctx env st := by
  by_cases hm : '=' ∈ env
  · cases hr : reference env with
    | none =>
      rw [body_reference_none sp₁ ctx st env hm hr, body_reference_none sp₂ ctx st env hm hr]
    | some name =>
      have hl : MatchString fullSecretRe name = true := hfull name (by simp [hr])
      rw [(body_reference_some sp₁ ctx st env name hr).2,
        (body_reference_some sp₂ ctx st env name hr).2]
      simp only [hl, if_true]
      exact access_congr sp₁ sp₂ hsm ctx _ _ st
  · rw [body_of_not_mem sp₁ ctx st hm, body_of_not_mem sp₂ ctx st hm]

theorem pass_scope_independent {κ σ ε : Type} (sp₁ sp₂ : SecretsProvider κ σ ε)
    (hsm : sp₁.sm = sp₂.sm) (ctx : κ) (vars : List Str) (st : σ)
    (hfull : ∀ env ∈ vars, ∀ name ∈ reference env, MatchString fullSecretRe name = true) :
    pass sp₁ ctx vars st = pass sp₂ ctx vars st := by
  induction vars generalizing st with
  | nil => rfl
  | cons env rest ih =>
    have hb := body_scope_independent sp₁ sp₂ hsm ctx env st (hfull env (by simp))
    have hrest : ∀ st', pass sp₁ ctx rest st' = pass sp₂ ctx rest st' :=
      fun st' => ih st' (fun e he => hfull e (List.mem_cons_of_mem _ he))
    simp only [pass, hb]
    cases ResolveSecrets.body sp₂ ctx env st with
    | append env' cs st' => simp only [hrest]
    | fail err cs st' => rfl
    | panic => rfl

/-- References that `fullSecretRe` matches do not depend on the ambient scope:
two providers over the same store that differ only in `projectID` (one of them
may have none), run from the same store state over a list in which every
tagged entry holds a reference that `fullSecretRe` matches, make the same calls
with the same names, leave the same store state and return the same. -/
theorem fully_qualified_scope_independent {κ σ ε : Type} (sp₁ sp₂ : SecretsProvider κ σ ε)
    (hsm : sp₁.sm = sp₂.sm) (ctx : κ) (vars : List Str) (st : σ)
    (hfull : ∀ env ∈ vars, ∀ name ∈ reference env, MatchString fullSecretRe name = true) :
    ResolveSecrets sp₁ ctx vars st = ResolveSecrets sp₂ ctx vars st := by
  simp only [resolve_eq_pass, pass_scope_independent sp₁ sp₂ hsm ctx vars st hfull]

/-- Example: `projects/P/secrets/S/versions/7` is requested under that very name
by a provider with ambient scope `other` and by one with no ambient scope. -/
theorem fully_qualified_scope_independent_witness :
    (ResolveSecrets (echoProvider "other".toList) ()
      ["K=gcp:secretmanager:projects/P/secrets/S/versions/7".toList, "A=b".toList] ()).calls =
      [("projects/P/secrets/S/versions/7".toList,
        .ok "projects/P/secrets/S/versions/7".toList)] ∧
    ResolveSecrets (echoProvider "other".toList) ()
      ["K=gcp:secretmanager:projects/P/secrets/S/versions/7".toList, "A=b".toList] () =
    ResolveSecrets (echoProvider []) ()
      ["K=gcp:secretmanager:projects/P/secrets/S/versions/7".toList, "A=b".toList] () :=
  ⟨by decide,
    fully_qualified_scope_independent (echoProvider "other".toList) (echoProvider []) rfl ()
      ["K=gcp:secretmanager:projects/P/secrets/S/versions/7".toList, "A=b".toList] ()
      (by decide)⟩

end SecretsInit

namespace SecretsInit

/-! ## Failure for want of an ambient scope -/

theorem access_calls {κ σ ε : Type} (sp : SecretsProvider κ σ ε) (ctx : κ) (key name : Str)
    (st : σ) :
    (ResolveSecrets.access sp ctx key name st).calls =
      [(ResolveSecrets.versioned name,
        (sp.sm.AccessSecretVersion ctx (ResolveSecrets.versioned name) st).1)] := by
  simp only [ResolveSecrets.access]
  rcases hr : sp.sm.AccessSecretVersion ctx (ResolveSecrets.versioned name) st with ⟨r, s⟩
  cases r <;> simp [Iter.calls]

theorem access_not_panic {κ σ ε : Type} (sp : SecretsProvider κ σ ε) (ctx : κ) (key name : Str)
    (st : σ) : ResolveSecrets.access sp ctx key name st ≠ .panic := by
  simp only [ResolveSecrets.access]
  rcases hr : sp.sm.AccessSecretVersion ctx (ResolveSecrets.versioned name) st with ⟨r, s⟩
  cases r <;> simp

/-- A provider without ambient scope only calls the store for references
classified fully-qualified. -/
theorem body_calls_no_scope {κ σ ε : Type} (sp : SecretsProvider κ σ ε) (ctx : κ) (st : σ)
    (env : Str) (hp : sp.projectID = []) :
    ∀ c ∈ (ResolveSecrets.body sp ctx env st).calls,
      ∃ name ∈ reference env, MatchString fullSecretRe name = true ∧
        c.1 = ResolveSecrets.versioned name := by
  intro c hc
  by_cases hm : '=' ∈ env
  · cases hr : reference env with
    | none =>
      rw [body_reference_none sp ctx st env hm hr] at hc
      simp [Iter.calls] at hc
    | some name =>
      rw [(body_reference_some sp ctx st env name hr).2] at hc
      by_cases hl : MatchString fullSecretRe name = true
      · simp only [hl, if_true, access_calls, List.mem_singleton] at hc
        exact ⟨name, by simp, hl, by rw [hc]⟩
      · simp [hl, hp, Iter.calls] at hc
  · rw [body_of_not_mem sp ctx st hm] at hc
    simp [Iter.calls] at hc

theorem pass_calls_no_scope {κ σ ε : Type} (sp : SecretsProvider κ σ ε) (ctx : κ)
    (vars : List Str) (st : σ) (hp : sp.projectID = []) :
    ∀ c ∈ (pass sp ctx vars st).1,
      ∃ env ∈ vars, ∃ name ∈ reference env, MatchString fullSecretRe name = true ∧
        c.1 = ResolveSecrets.versioned name := by
  induction vars generalizing st with
  | nil => simp [pass]
  | cons env rest ih =>
    intro c hc
    have hbody := body_calls_no_scope sp ctx st env hp c
    cases hb : ResolveSecrets.body sp ctx env st with
    | append env' cs st' =>
      simp only [pass, hb, List.mem_append] at hc
      rcases hc with hc | hc
      · obtain ⟨name, hn, hl, he⟩ := hbody (by simpa [hb, Iter.calls] using hc)
        exact ⟨env, by simp, name, hn, hl, he⟩
      · obtain ⟨e, he, name, hn, hl, hce⟩ := ih st' c hc
        exact ⟨e, List.mem_cons_of_mem _ he, name, hn, hl, hce⟩
    | fail err cs st' =>
      simp only [pass, hb] at hc
      obtain ⟨name, hn, hl, he⟩ := hbody (by simpa [hb, Iter.calls] using hc)
      exact ⟨env, by simp, name, hn, hl, he⟩
    | panic => simp [pass, hb] at hc

theorem pass_failed_no_scope {κ σ ε : Type} (sp : SecretsProvider κ σ ε) (ctx : κ)
    (vars : List Str) (st : σ) (hp : sp.projectID = []) (heq : ∀ env ∈ vars, '=' ∈ env)
    (hshort : ∃ env ∈ vars, ∃ name ∈ reference env, MatchString fullSecretRe name = false) :
    ∃ err, (pass sp ctx vars st).2.2 = .failed err := by
  induction vars generalizing st with
  | nil => simp at hshort
  | cons env rest ih =>
    have hm : '=' ∈ env := heq env (by simp)
    have hrest : ∀ st', (∃ e ∈ rest, ∃ name ∈ reference e,
        MatchString fullSecretRe name = false) → ∃ err, (pass sp ctx rest st').2.2 = .failed err :=
      fun st' h => ih st' (fun e he => heq e (List.mem_cons_of_mem _ he)) h
    cases hb : ResolveSecrets.body sp ctx env st with
    | append env' cs st' =>
      have hin : ∃ e ∈ rest, ∃ name ∈ reference e, MatchString fullSecretRe name = false := by
        obtain ⟨e, he, name, hn, hl⟩ := hshort
        rcases List.mem_cons.1 he with rfl | he
        · exfalso
          have hr : reference e = some name := by simpa using hn
          rw [(body_reference_some sp ctx st e name hr).2] at hb
          simp [hl, hp] at hb
        · exact ⟨e, he, name, hn, hl⟩
      obtain ⟨err, he⟩ := hrest st' hin
      exact ⟨err, by simp [pass, hb, he, PassEnd.prepend]⟩
    | fail err cs st' => exact ⟨err, by simp [pass, hb]⟩
    | panic =>
      exfalso
      cases hr : reference env with
      | none =>
        rw [body_reference_none sp ctx st env hm hr] at hb
        cases hb
      | some name =>
        rw [(body_reference_some sp ctx st env name hr).2] at hb
        split at hb
        · exact access_not_panic _ _ _ _ _ hb
        · cases hb

/-- Failure for want of an ambient scope, for the references that `fullSecretRe`
does not match: a provider whose `projectID` is empty, over any store and any
list of entries that all hold `=` and of which at least one is tagged with a
reference that `fullSecretRe` does not match, returns an error, next to the
input list itself and not a resolved list; and every call it made before
failing was for a reference that `fullSecretRe` matches. -/
theorem scope_missing_failure {κ σ ε : Type} (sp : SecretsProvider κ σ ε) (ctx : κ)
    (vars : List Str) (st : σ) (hp : sp.projectID = []) (heq : ∀ env ∈ vars, '=' ∈ env)
    (hshort : ∃ env ∈ vars, ∃ name ∈ reference env, MatchString fullSecretRe name = false) :
    (∃ err, (ResolveSecrets sp ctx vars st).ret = some (vars, some err)) ∧
    ∀ c ∈ (ResolveSecrets sp ctx vars st).calls,
      ∃ env ∈ vars, ∃ name ∈ reference env, MatchString fullSecretRe name = true ∧
        c.1 = ResolveSecrets.versioned name := by
  obtain ⟨err, he⟩ := pass_failed_no_scope sp ctx vars st hp heq hshort
  refine ⟨⟨err, by simp [resolve_eq_pass, he, PassEnd.toRet]⟩, ?_⟩
  simpa only [resolve_eq_pass] using pass_calls_no_scope sp ctx vars st hp

/-- Example: `X=gcp:secretmanager:secretA` with no ambient scope. -/
theorem scope_missing_failure_witness :
    (ResolveSecrets (echoProvider []) () ["X=gcp:secretmanager:secretA".toList] ()).ret =
      some (["X=gcp:secretmanager:secretA".toList],
        some (.Errorf (unknownProjectMsg "secretA".toList))) ∧
    (ResolveSecrets (echoProvider []) () ["X=gcp:secretmanager:secretA".toList] ()).calls = [] ∧
    ((∃ err, (ResolveSecrets (echoProvider []) () ["X=gcp:secretmanager:secretA".toList] ()).ret =
        some (["X=gcp:secretmanager:secretA".toList], some err)) ∧
      ∀ c ∈ (ResolveSecrets (echoProvider []) () ["X=gcp:secretmanager:secretA".toList] ()).calls,
        ∃ env ∈ ["X=gcp:secretmanager:secretA".toList], ∃ name ∈ reference env,
          MatchString fullSecretRe name = true ∧ c.1 = ResolveSecrets.versioned name) :=
  ⟨by decide, by decide,
    scope_missing_failure (echoProvider []) () ["X=gcp:secretmanager:secretA".toList] () rfl
      (by decide) ⟨_, List.mem_singleton.2 rfl, "secretA".toList, by decide, by decide⟩⟩

end SecretsInit

namespace SecretsInit

/-! ## Failure of a fetch -/

theorem access_cases {κ σ ε : Type} (sp : SecretsProvider κ σ ε) (ctx : κ) (key name : Str)
    (st : σ) :
    (∃ cause st', ResolveSecrets.access sp ctx key name st =
        .fail (.Wrap cause fetchFailedMsg)
          [(ResolveSecrets.versioned name, .error cause)] st') ∨
    (∃ payload st', ResolveSecrets.access sp ctx key name st =
        .append (key ++ '=' :: payload) [(ResolveSecrets.versioned name, .ok payload)] st') := by
  simp only [ResolveSecrets.access]
  rcases hr : sp.sm.AccessSecretVersion ctx (ResolveSecrets.versioned name) st with ⟨r, s⟩
  cases r with
  | error cause => exact Or.inl ⟨cause, s, rfl⟩
  | ok payload => exact Or.inr ⟨payload, s, by simp⟩

/-- The four ways an iteration can go. -/
theorem body_cases {κ σ ε : Type} (sp : SecretsProvider κ σ ε) (ctx : κ) (env : Str) (st : σ) :
    ResolveSecrets.body sp ctx env st = .panic ∨
    ResolveSecrets.body sp ctx env st = .append env [] st ∨
    (∃ name, ResolveSecrets.body sp ctx env st =
      .fail (.Errorf (unknownProjectMsg name)) [] st) ∨
    (∃ key name, ResolveSecrets.body sp ctx env st =
      ResolveSecrets.access sp ctx key name st) := by
  by_cases hm : '=' ∈ env
  · rw [body_of_mem sp ctx st hm]
    split
    · split
      · exact Or.inr (Or.inr (Or.inr ⟨_, _, rfl⟩))
      · split
        · exact Or.inr (Or.inr (Or.inl ⟨_, rfl⟩))
        · exact Or.inr (Or.inr (Or.inr ⟨_, _, rfl⟩))
    · exact Or.inr (Or.inl rfl)
  · exact Or.inl (body_of_not_mem sp ctx st hm)

/-- An iteration that appends an entry made no failed call. -/
theorem body_append_no_error {κ σ ε : Type} (sp : SecretsProvider κ σ ε) (ctx : κ)
    (env env' : Str) (st st' : σ) (cs : List (Call ε))
    (hb : ResolveSecrets.body sp ctx env st = .append env' cs st') (name : Str) (cause : ε) :
    (name, Except.error cause) ∉ cs := by
  intro hc
  rcases body_cases sp ctx env st with h | h | ⟨n, h⟩ | ⟨key, n, h⟩
  · rw [h] at hb
    cases hb
  · rw [h] at hb
    cases hb
    simp at hc
  · rw [h] at hb
    cases hb
  · rcases access_cases sp ctx key n st with ⟨c, s, ha⟩ | ⟨payload, s, ha⟩
    · rw [h, ha] at hb
      cases hb
    · rw [h, ha] at hb
      cases hb
      simp at hc

/-- An iteration that returns an error after a failed call returns that call's
error, wrapped. -/
theorem body_fail_wraps {κ σ ε : Type} (sp : SecretsProvider κ σ ε) (ctx : κ)
    (env : Str) (st st' : σ) (err : Error ε) (cs : List (Call ε))
    (hb : ResolveSecrets.body sp ctx env st = .fail err cs st') (name : Str) (cause : ε)
    (hc : (name, Except.error cause) ∈ cs) : err = .Wrap cause fetchFailedMsg := by
  rcases body_cases sp ctx env st with h | h | ⟨n, h⟩ | ⟨key, n, h⟩
  · rw [h] at hb
    cases hb
  · rw [h] at hb
    cases hb
  · rw [h] at hb
    cases hb
    simp at hc
  · rcases access_cases sp ctx key n st with ⟨c, s, ha⟩ | ⟨payload, s, ha⟩
    · rw [h, ha] at hb
      cases hb
      simp only [List.mem_singleton, Prod.mk.injEq, Except.error.injEq] at hc
      rw [hc.2]
    · rw [h, ha] at hb
      cases hb

theorem pass_failed_of_error_call {κ σ ε : Type} (sp : SecretsProvider κ σ ε) (ctx : κ)
    (vars : List Str) (st : σ) (name : Str) (cause : ε)
    (hc : (name, Except.error cause) ∈ (pass sp ctx vars st).1) :
    (pass sp ctx vars st).2.2 = .failed (.Wrap cause fetchFailedMsg) := by
  induction vars generalizing st with
  | nil => simp [pass] at hc
  | cons env rest ih =>
    cases hb : ResolveSecrets.body sp ctx env st with
    | append env' cs st' =>
      simp only [pass, hb, List.mem_append] at hc ⊢
      rcases hc with hc | hc
      · exact absurd hc (body_append_no_error sp ctx env env' st st' cs hb name cause)
      · rw [ih st' hc]
        rfl
    | fail err cs st' =>
      simp only [pass, hb] at hc ⊢
      rw [body_fail_wraps sp ctx env st st' err cs hb name cause hc]
    | panic => simp [pass, hb] at hc

/-- C7 (atomic failure): for every provider, store, store state and entry list,
if a fetch made during the pass fails with `cause`, `ResolveSecrets` returns the
error wrapping `cause`, and the list next to it is the input list `vars`
itself; it is never a list in which earlier references were replaced. -/
theorem atomic_failure {κ σ ε : Type} (sp : SecretsProvider κ σ ε) (ctx : κ)
    (vars : List Str) (st : σ) (name : Str) (cause : ε)
    (hc : (name, Except.error cause) ∈ (ResolveSecrets sp ctx vars st).calls) :
    (ResolveSecrets sp ctx vars st).ret =
      some (vars, some (.Wrap cause fetchFailedMsg)) := by
  rw [resolve_eq_pass] at hc ⊢
  simp only [pass_failed_of_error_call sp ctx vars st name cause hc, PassEnd.toRet]

/-- Witness of C7: the fetch for entry 3 of 5 fails after entry 1 was fetched;
the error comes back next to the five input entries, `A` still unresolved. -/
theorem atomic_failure_witness :
    (ResolveSecrets twoSecretsProvider () fiveEntries ()).calls =
      [("projects/p/secrets/s1/versions/latest".toList, .ok "v1".toList),
        ("projects/p/secrets/missing/versions/latest".toList,
          .error "projects/p/secrets/missing/versions/latest".toList)] ∧
    (ResolveSecrets twoSecretsProvider () fiveEntries ()).ret =
      some (fiveEntries,
        some (.Wrap "projects/p/secrets/missing/versions/latest".toList fetchFailedMsg)) :=
  ⟨by decide,
    atomic_failure twoSecretsProvider () fiveEntries ()
      "projects/p/secrets/missing/versions/latest".toList
      "projects/p/secrets/missing/versions/latest".toList (by decide)⟩

end SecretsInit

namespace SecretsInit

/-! ## Key splitting -/

/-- C8, the code at the failing input: `strings.Split` cuts at every `=`, so for
`A=B=C` the piece `kv[1]` is `B` and not `B=C`, and for
`K=gcp:secretmanager:a=b` the reference extracted is `a`: with ambient scope `p`
the name requested is `projects/p/secrets/a/versions/latest`, whereas the
whole reference `a=b` has the normalised name
`projects/p/secrets/a=b/versions/latest`. -/
theorem key_splitting_cuts_every_eq :
    Split "A=B=C".toList '=' = ["A".toList, "B".toList, "C".toList] ∧
    valueOf "A=B=C".toList = "B=C".toList ∧
    valueOf "K=gcp:secretmanager:a=b".toList = schemeTag ++ "a=b".toList ∧
    reference "K=gcp:secretmanager:a=b".toList = some "a".toList ∧
    (ResolveSecrets (echoProvider "p".toList) ()
      ["K=gcp:secretmanager:a=b".toList] ()).calls.map Prod.fst =
      ["projects/p/secrets/a/versions/latest".toList] ∧
    normalisedName "p".toList "a=b".toList =
      "projects/p/secrets/a=b/versions/latest".toList := by
  decide

/-! ## Locators of the documented shape -/

/-- C9, the code at the failing input: the locator `projects/p/secrets/+x` has the
documented shape `projects/{PROJECT_ID}/secrets/{SECRET_NAME}` with the
non-empty name `+x`, but `fullSecretRe` does not match it (`[^/+]` excludes `+`
as first character of the name); with ambient scope `q` it is rewritten and
requested as `projects/q/secrets/projects/p/secrets/+x/versions/latest`, and
with no ambient scope it is rejected without any call. -/
theorem documented_shape_plus_not_recognised :
    MatchString fullSecretRe "projects/p/secrets/+x".toList = false ∧
    (ResolveSecrets (echoProvider "q".toList) ()
      ["X=gcp:secretmanager:projects/p/secrets/+x".toList] ()).calls.map Prod.fst =
      ["projects/q/secrets/projects/p/secrets/+x/versions/latest".toList] ∧
    (ResolveSecrets (echoProvider []) ()
      ["X=gcp:secretmanager:projects/p/secrets/+x".toList] ()).calls = [] ∧
    (ResolveSecrets (echoProvider []) ()
      ["X=gcp:secretmanager:projects/p/secrets/+x".toList] ()).ret =
      some (["X=gcp:secretmanager:projects/p/secrets/+x".toList],
        some (.Errorf (unknownProjectMsg "projects/p/secrets/+x".toList))) := by
  decide

/-! ## An explicit version -/

theorem Contains_of_HasPrefix (s sub : Str) (h : HasPrefix s sub = true) :
    Contains s sub = true := by
  cases s with
  | nil => simpa [Contains] using h
  | cons c cs => simp [Contains, h]

theorem Contains_append_left (a s sub : Str) (h : Contains s sub = true) :
    Contains (a ++ s) sub = true := by
  induction a with
  | nil => simpa using h
  | cons c cs ih => simp [Contains, ih]

theorem Contains_infix (a sub b : Str) : Contains (a ++ (sub ++ b)) sub = true :=
  Contains_append_left a _ sub (Contains_of_HasPrefix _ _ (HasPrefix_append sub b))

theorem versioned_of_Contains (n : Str) (h : Contains n "/versions/".toList = true) :
    ResolveSecrets.versioned n = n := by
  simp only [ResolveSecrets.versioned, h, Bool.not_true, Bool.false_eq_true, if_false]

theorem versioned_eq_append_iff (n : Str) :
    ResolveSecrets.versioned n = n ++ "/versions/latest".toList ↔
      Contains n "/versions/".toList = false := by
  constructor
  · intro h
    by_contra hc
    have hc' : Contains n "/versions/".toList = true := by simpa using hc
    rw [versioned_of_Contains n hc'] at h
    have := congrArg List.length h
    simp at this
  · intro h
    simp only [ResolveSecrets.versioned, h, Bool.not_false, if_true]

/-- C10 (an explicit version is left untouched): for a tagged entry whose
reference `R` can be named, reached after the entries before it resolved, let
`rewritten p R` be the name after short-form rewriting. If it contains
`/versions/`, whatever follows, the name requested from the store is that name
with nothing appended; `/versions/latest` is appended exactly when it contains
no `/versions/`; and a short-form `s/versions/V` is requested as
`projects/p/secrets/s/versions/V`. -/
theorem explicit_version_untouched {κ σ ε : Type} (sp : SecretsProvider κ σ ε) (ctx : κ)
    (pre post outPre : List Str) (K R : Str) (st : σ) (hK : '=' ∉ K) (hR : '=' ∉ R)
    (hs : MatchString fullSecretRe R = true ∨ sp.projectID ≠ [])
    (hpre : (ResolveSecrets sp ctx pre st).ret = some (outPre, none)) :
    (Contains (rewritten sp.projectID R) "/versions/".toList = true →
      requestFor sp ctx pre (K ++ '=' :: (schemeTag ++ R)) post st =
        some (rewritten sp.projectID R)) ∧
    (requestFor sp ctx pre (K ++ '=' :: (schemeTag ++ R)) post st =
        some (rewritten sp.projectID R ++ "/versions/latest".toList) ↔
      Contains (rewritten sp.projectID R) "/versions/".toList = false) ∧
    (∀ s V : Str, R = s ++ ("/versions/".toList ++ V) →
      MatchString fullSecretRe R = false →
      requestFor sp ctx pre (K ++ '=' :: (schemeTag ++ R)) post st =
        some ("projects/".toList ++ sp.projectID ++ "/secrets/".toList ++ s ++
          "/versions/".toList ++ V)) := by
  have hreq := requestFor_tagged sp ctx pre post outPre K R st hK hR hs hpre
  rw [hreq]
  refine ⟨?_, ?_, ?_⟩
  · intro h
    rw [normalisedName, versioned_of_Contains _ h]
  · rw [normalisedName, Option.some.injEq]
    exact versioned_eq_append_iff _
  · intro s V hRe hshort
    have hrw : rewritten sp.projectID R =
        "projects/".toList ++ sp.projectID ++ "/secrets/".toList ++ s ++
          "/versions/".toList ++ V := by
      rw [rewritten, hshort, hRe]
      simp only [ResolveSecrets.qualified, Bool.false_eq_true, if_false, List.append_assoc]
    have hcont : Contains (rewritten sp.projectID R) "/versions/".toList = true := by
      rw [hrw]
      have := Contains_infix ("projects/".toList ++ sp.projectID ++ "/secrets/".toList ++ s)
        "/versions/".toList V
      simpa only [List.append_assoc] using this
    rw [normalisedName, versioned_of_Contains _ hcont, hrw]

/-- Witness of C10: with ambient scope `p`, the entry
`K=gcp:secretmanager:s/versions/V`, standing after `A=gcp:secretmanager:s`, is
requested as `projects/p/secrets/s/versions/V`, while `gcp:secretmanager:s` is
requested as `projects/p/secrets/s/versions/latest`. -/
theorem explicit_version_untouched_witness :
    (ResolveSecrets (echoProvider "p".toList) ()
      ["A=gcp:secretmanager:s".toList, "K=gcp:secretmanager:s/versions/V".toList] ()).calls.map
        Prod.fst =
      ["projects/p/secrets/s/versions/latest".toList,
        "projects/p/secrets/s/versions/V".toList] ∧
    requestFor (echoProvider "p".toList) () ["A=gcp:secretmanager:s".toList]
      ("K".toList ++ '=' :: (schemeTag ++ "s/versions/V".toList)) [] () =
      some "projects/p/secrets/s/versions/V".toList :=
  ⟨by decide,
    (explicit_version_untouched (echoProvider "p".toList) ()
      ["A=gcp:secretmanager:s".toList] [] ["A=projects/p/secrets/s/versions/latest".toList]
      "K".toList "s/versions/V".toList () (by decide) (by decide) (Or.inr (by decide))
      (by decide)).2.2 "s".toList "V".toList (by decide) (by decide)⟩

end SecretsInit

namespace SecretsInit

/-! ## Classification of a reference -/

/-- C11, the code at the failing input: the reference `x/projects/a/secrets/b`
does not begin with `projects/`, yet `fullSecretRe`, whose search is not
anchored, matches it, so the code treats it as fully-qualified: with ambient
scope `p` it is requested as `x/projects/a/secrets/b/versions/latest` and not
rewritten to `projects/p/secrets/x/projects/a/secrets/b`, and with no ambient
scope it is fetched all the same instead of being rejected. -/
theorem unanchored_match_classifies_long :
    HasPrefix "x/projects/a/secrets/b".toList "projects/".toList = false ∧
    MatchString fullSecretRe "x/projects/a/secrets/b".toList = true ∧
    (ResolveSecrets (echoProvider "p".toList) ()
      ["X=gcp:secretmanager:x/projects/a/secrets/b".toList] ()).calls.map Prod.fst =
      ["x/projects/a/secrets/b/versions/latest".toList] ∧
    (ResolveSecrets (echoProvider []) ()
      ["X=gcp:secretmanager:x/projects/a/secrets/b".toList] ()).ret =
      some (["X=x/projects/a/secrets/b/versions/latest".toList], none) := by
  decide

/-! ## The error of a failed fetch -/

/-- C13, the code at the failing input: over a store that refuses every request
with the cause `denied`, the failed fetches of `projects/p/secrets/a/versions/latest`
and of `projects/p/secrets/b/versions/latest` return the same error value,
`errors.Wrap(denied, "failed to get secret from Google Secret Manager")`: the
cause is wrapped, but the error built at line 84 does not hold the name, unlike
the error of line 69, whose message quotes it. -/
theorem fetch_error_omits_name :
    (ResolveSecrets denyingProvider () ["X=gcp:secretmanager:a".toList] ()).calls =
      [("projects/p/secrets/a/versions/latest".toList, .error "denied".toList)] ∧
    (ResolveSecrets denyingProvider () ["X=gcp:secretmanager:b".toList] ()).calls =
      [("projects/p/secrets/b/versions/latest".toList, .error "denied".toList)] ∧
    (ResolveSecrets denyingProvider () ["X=gcp:secretmanager:a".toList] ()).ret.map Prod.snd =
      some (some (.Wrap "denied".toList
        "failed to get secret from Google Secret Manager".toList)) ∧
    (ResolveSecrets denyingProvider () ["X=gcp:secretmanager:b".toList] ()).ret.map Prod.snd =
      some (some (.Wrap "denied".toList
        "failed to get secret from Google Secret Manager".toList)) ∧
    (ResolveSecrets (echoProvider []) () ["X=gcp:secretmanager:a".toList] ()).ret.map Prod.snd =
      some (some (.Errorf
        "failed to get secret \"a\" from Google Secret Manager (unknown project)".toList)) := by
  decide

/-! ## What comes back next to an error -/

/-- C18 (the slice returned next to an error): whenever `ResolveSecrets` returns
an error, for a missing ambient scope or for a failed fetch, the list returned
with it is the argument `vars` itself, so it has the input's length and entries,
references unresolved, however many earlier entries were fetched. -/
theorem error_returns_input {κ σ ε : Type} (sp : SecretsProvider κ σ ε) (ctx : κ)
    (vars out : List Str) (st : σ) (err : Error ε)
    (h : (ResolveSecrets sp ctx vars st).ret = some (out, some err)) : out = vars := by
  rw [resolve_eq_pass] at h
  cases hp : (pass sp ctx vars st).2.2 with
  | done o => simp [hp, PassEnd.toRet] at h
  | failed e =>
    simp only [hp, PassEnd.toRet, Option.some.injEq, Prod.mk.injEq] at h
    exact h.1.symm
  | panicked => simp [hp, PassEnd.toRet] at h

/-- Witness of C18: the third of five entries fails to fetch after the first was
fetched as `v1`; the list returned with the error is the five input entries. -/
theorem error_returns_input_witness :
    (ResolveSecrets twoSecretsProvider () fiveEntries ()).calls.length = 2 ∧
    (ResolveSecrets twoSecretsProvider () fiveEntries ()).ret =
      some (fiveEntries,
        some (.Wrap "projects/p/secrets/missing/versions/latest".toList fetchFailedMsg)) ∧
    fiveEntries = fiveEntries :=
  ⟨by decide, by decide,
    error_returns_input twoSecretsProvider () fiveEntries fiveEntries ()
      (.Wrap "projects/p/secrets/missing/versions/latest".toList fetchFailedMsg) (by decide)⟩

end SecretsInit

namespace SecretsInit

/-! ## The index `kv[1]` -/

theorem Split_length_iff (env : Str) : 1 < (Split env '=').length ↔ '=' ∈ env := by
  constructor
  · intro h
    by_contra hm
    rw [Split_of_not_mem hm] at h
    simp at h
  · intro hm
    obtain ⟨rest, hr⟩ := Split_of_mem hm
    rw [hr]
    simp

theorem body_not_panic_of_mem {κ σ ε : Type} (sp : SecretsProvider κ σ ε) (ctx : κ) (st : σ)
    {env : Str} (hm : '=' ∈ env) : ResolveSecrets.body sp ctx env st ≠ .panic := by
  rw [body_of_mem sp ctx st hm]
  split
  · split
    · exact access_not_panic _ _ _ _ _
    · split
      · simp
      · exact access_not_panic _ _ _ _ _
  · simp

theorem pass_not_panicked {κ σ ε : Type} (sp : SecretsProvider κ σ ε) (ctx : κ)
    (vars : List Str) (st : σ) (heq : ∀ env ∈ vars, '=' ∈ env) :
    (pass sp ctx vars st).2.2 ≠ .panicked := by
  induction vars generalizing st with
  | nil => simp [pass]
  | cons env rest ih =>
    have hm : '=' ∈ env := heq env (by simp)
    cases hb : ResolveSecrets.body sp ctx env st with
    | append env' cs st' =>
      have := ih st' (fun e he => heq e (List.mem_cons_of_mem _ he))
      rw [pass_cons_append sp ctx env rest st st' env' cs hb]
      cases hp : (pass sp ctx rest st').2.2 <;> simp_all [PassEnd.prepend]
    | fail err cs st' => simp [pass, hb]
    | panic => exact absurd hb (body_not_panic_of_mem sp ctx st hm)

/-- C17 (the unchecked index `kv[1]`): index 1 of the split of an entry is in
range exactly when the entry holds `=`; over a list whose entries all hold `=`
(an empty key or an empty value included) `ResolveSecrets` does not panic and
returns a list, with or without an error; and an entry without `=` that the
loop reaches (the entries before it having resolved) makes the run panic, so
that nothing is returned: the entry is neither passed through nor reported. -/
theorem index_in_range_iff_eq {κ σ ε : Type} (sp : SecretsProvider κ σ ε) (ctx : κ) (st : σ) :
    (∀ env : Str, 1 < (Split env '=').length ↔ '=' ∈ env) ∧
    (∀ vars : List Str, (∀ env ∈ vars, '=' ∈ env) →
      ∃ out err, (ResolveSecrets sp ctx vars st).ret = some (out, err)) ∧
    (∀ (pre post outPre : List Str) (env : Str),
      (ResolveSecrets sp ctx pre st).ret = some (outPre, none) → '=' ∉ env →
      (ResolveSecrets sp ctx (pre ++ env :: post) st).ret = none) := by
  refine ⟨Split_length_iff, ?_, ?_⟩
  · intro vars heq
    have hp := pass_not_panicked sp ctx vars st heq
    rw [resolve_eq_pass]
    cases he : (pass sp ctx vars st).2.2 with
    | done o => exact ⟨_, _, rfl⟩
    | failed e => exact ⟨_, _, rfl⟩
    | panicked => exact absurd he hp
  · intro pre post outPre env hpre hm
    have hd := (ret_ok_iff sp ctx pre outPre st).1 hpre
    rw [resolve_eq_pass, pass_append_of_done sp ctx pre (env :: post) outPre st hd]
    simp [pass, body_of_not_mem sp ctx _ hm, PassEnd.prepend, PassEnd.toRet]

/-- Witness of C17: `=v` and `K=` go through, while the entry `novalue`, and the
empty entry, reached after `A=b`, make the run panic. -/
theorem index_in_range_iff_eq_witness :
    (ResolveSecrets (echoProvider "p".toList) () ["=v".toList, "K=".toList] ()).ret =
      some (["=v".toList, "K=".toList], none) ∧
    (∃ out err, (ResolveSecrets (echoProvider "p".toList) ()
      ["=v".toList, "K=".toList] ()).ret = some (out, err)) ∧
    (ResolveSecrets (echoProvider "p".toList) ()
      (["A=b".toList] ++ "novalue".toList :: ["C=d".toList]) ()).ret = none ∧
    (ResolveSecrets (echoProvider "p".toList) ()
      (["A=b".toList] ++ [] :: []) ()).ret = none :=
  ⟨by decide,
    (index_in_range_iff_eq (echoProvider "p".toList) () ()).2.1
      ["=v".toList, "K=".toList] (by decide),
    (index_in_range_iff_eq (echoProvider "p".toList) () ()).2.2
      ["A=b".toList] ["C=d".toList] ["A=b".toList] "novalue".toList (by decide) (by decide),
    (index_in_range_iff_eq (echoProvider "p".toList) () ()).2.2
      ["A=b".toList] [] ["A=b".toList] [] (by decide) (by decide)⟩

end SecretsInit

namespace SecretsInit

/-! ## One fetch for each reference -/

theorem reference_isSome {env : Str} (hm : '=' ∈ env) :
    (reference env).isSome = HasPrefix (valueOf env) schemeTag := by
  obtain ⟨rest, hr⟩ := Split_of_mem hm
  simp only [reference, hr, HasPrefix_keyOf_schemeTag]
  cases HasPrefix (valueOf env) schemeTag <;> simp

/-- The calls of an iteration that appends an entry: none for an entry without
reference, one successful call for the normalised name of its reference. -/
theorem body_append_calls {κ σ ε : Type} (sp : SecretsProvider κ σ ε) (ctx : κ)
    (env env' : Str) (st st' : σ) (cs : List (Call ε))
    (hb : ResolveSecrets.body sp ctx env st = .append env' cs st') :
    cs.map Prod.fst = ((reference env).map (normalisedName sp.projectID)).toList := by
  have hm := (body_append_key sp ctx st st' env env' cs hb).1
  cases hr : reference env with
  | none =>
    rw [body_reference_none sp ctx st env hm hr] at hb
    cases hb
    rfl
  | some name =>
    rw [(body_reference_some sp ctx st env name hr).2] at hb
    have hacc : ∀ n, ResolveSecrets.access sp ctx (keyOf env) n st = .append env' cs st' →
        cs.map Prod.fst = [ResolveSecrets.versioned n] := by
      intro n ha
      rcases access_cases sp ctx (keyOf env) n st with ⟨c, s, h⟩ | ⟨payload, s, h⟩
      · rw [h] at ha
        cases ha
      · rw [h] at ha
        cases ha
        rfl
    by_cases hl : MatchString fullSecretRe name = true
    · simp only [hl, if_true] at hb
      simp [hacc _ hb, normalisedName, rewritten, hl]
    · simp only [hl, Bool.false_eq_true, if_false] at hb
      split at hb
      · cases hb
      · simp [hacc _ hb, normalisedName, rewritten, hl]

theorem pass_done_calls {κ σ ε : Type} (sp : SecretsProvider κ σ ε) (ctx : κ)
    (vars out : List Str) (st : σ) (h : (pass sp ctx vars st).2.2 = .done out) :
    (pass sp ctx vars st).1.map Prod.fst =
      vars.filterMap (fun env => (reference env).map (normalisedName sp.projectID)) ∧
    (pass sp ctx vars st).1.length =
      (vars.filter (fun env => HasPrefix (valueOf env) schemeTag)).length := by
  induction vars generalizing out st with
  | nil => simp [pass]
  | cons e rest ih =>
    obtain ⟨env', cs, st', out', hb, hp, -, hc, -⟩ := pass_cons_done sp ctx e rest out st h
    obtain ⟨ih1, ih2⟩ := ih out' st' hp
    have hcs := body_append_calls sp ctx e env' st st' cs hb
    have hm := (body_append_key sp ctx st st' e env' cs hb).1
    have hsome := reference_isSome hm
    have hlen : cs.length = ((reference e).map (normalisedName sp.projectID)).toList.length := by
      rw [← hcs, List.length_map]
    rw [hc, List.map_append, List.length_append, ih1, ih2, hcs, hlen]
    cases hr : reference e with
    | none =>
      have ht : HasPrefix (valueOf e) schemeTag = false := by rw [← hsome, hr]; rfl
      simp [List.filterMap_cons, hr, List.filter_cons, ht]
    | some name =>
      have ht : HasPrefix (valueOf e) schemeTag = true := by rw [← hsome, hr]; rfl
      simp [List.filterMap_cons, hr, List.filter_cons, ht]
      omega

/-- C12 (exactly one fetch per matched reference): in a successful pass the
names requested from the store are, in input order, the normalised names of the
references of the tagged entries and nothing else; their number is the number
of entries whose value starts with `gcp:secretmanager:`. Hence an untagged
entry causes no call and a reference that occurs twice is fetched twice. -/
theorem one_fetch_per_reference {κ σ ε : Type} (sp : SecretsProvider κ σ ε) (ctx : κ)
    (vars out : List Str) (st : σ)
    (hok : (ResolveSecrets sp ctx vars st).ret = some (out, none)) :
    (ResolveSecrets sp ctx vars st).calls.map Prod.fst =
      vars.filterMap (fun env => (reference env).map (normalisedName sp.projectID)) ∧
    (ResolveSecrets sp ctx vars st).calls.length =
      (vars.filter (fun env => HasPrefix (valueOf env) schemeTag)).length := by
  have h := pass_done_calls sp ctx vars out st ((ret_ok_iff sp ctx vars out st).1 hok)
  simpa only [resolve_eq_pass] using h

/-- Witness of C12: in `[A=gcp:secretmanager:s, B=x, C=gcp:secretmanager:s]` the
same reference is fetched twice and `B=x` causes no call. -/
theorem one_fetch_per_reference_witness :
    (ResolveSecrets (echoProvider "p".toList) ()
      ["A=gcp:secretmanager:s".toList, "B=x".toList, "C=gcp:secretmanager:s".toList] ()).calls.map
        Prod.fst =
      ["projects/p/secrets/s/versions/latest".toList,
        "projects/p/secrets/s/versions/latest".toList] ∧
    (ResolveSecrets (echoProvider "p".toList) ()
      ["A=gcp:secretmanager:s".toList, "B=x".toList, "C=gcp:secretmanager:s".toList] ()).calls.length =
      (["A=gcp:secretmanager:s".toList, "B=x".toList, "C=gcp:secretmanager:s".toList].filter
        (fun env => HasPrefix (valueOf env) schemeTag)).length :=
  ⟨by decide,
    (one_fetch_per_reference (echoProvider "p".toList) ()
      ["A=gcp:secretmanager:s".toList, "B=x".toList, "C=gcp:secretmanager:s".toList]
      ["A=projects/p/secrets/s/versions/latest".toList, "B=x".toList,
        "C=projects/p/secrets/s/versions/latest".toList] () (by decide)).2⟩

end SecretsInit

namespace SecretsInit

/-! ## Abort at the first failure -/

/-- The two ways an iteration returns an error: no ambient scope for a
short-form reference, without any call; or one call that failed. -/
theorem body_fail_cases {κ σ ε : Type} (sp : SecretsProvider κ σ ε) (ctx : κ)
    (env : Str) (st st' : σ) (err : Error ε) (cs : List (Call ε))
    (hb : ResolveSecrets.body sp ctx env st = .fail err cs st') :
    (∃ name, reference env = some name ∧ err = .Errorf (unknownProjectMsg name) ∧ cs = []) ∨
    (∃ name cause, reference env = some name ∧ err = .Wrap cause fetchFailedMsg ∧
      cs = [(normalisedName sp.projectID name, .error cause)]) := by
  have hm : '=' ∈ env := by
    by_contra hc
    rw [body_of_not_mem sp ctx st hc] at hb
    cases hb
  cases hr : reference env with
  | none =>
    rw [body_reference_none sp ctx st env hm hr] at hb
    cases hb
  | some name =>
    rw [(body_reference_some sp ctx st env name hr).2] at hb
    have hacc : ∀ n, ResolveSecrets.access sp ctx (keyOf env) n st = .fail err cs st' →
        ∃ cause, err = .Wrap cause fetchFailedMsg ∧
          cs = [(ResolveSecrets.versioned n, .error cause)] := by
      intro n ha
      rcases access_cases sp ctx (keyOf env) n st with ⟨c, s, h⟩ | ⟨payload, s, h⟩
      · rw [h] at ha
        cases ha
        exact ⟨c, rfl, rfl⟩
      · rw [h] at ha
        cases ha
    by_cases hl : MatchString fullSecretRe name = true
    · simp only [hl, if_true] at hb
      obtain ⟨cause, he, hc⟩ := hacc _ hb
      exact Or.inr ⟨name, cause, rfl, he, by simp [hc, normalisedName, rewritten, hl]⟩
    · simp only [hl, Bool.false_eq_true, if_false] at hb
      split at hb
      · cases hb
        exact Or.inl ⟨name, rfl, rfl, rfl⟩
      · obtain ⟨cause, he, hc⟩ := hacc _ hb
        exact Or.inr ⟨name, cause, rfl, he, by simp [hc, normalisedName, rewritten, hl]⟩

theorem pass_singleton_failed {κ σ ε : Type} (sp : SecretsProvider κ σ ε) (ctx : κ)
    (env : Str) (st : σ) (err : Error ε) (h : (pass sp ctx [env] st).2.2 = .failed err) :
    ∃ cs st', ResolveSecrets.body sp ctx env st = .fail err cs st' := by
  cases hb : ResolveSecrets.body sp ctx env st with
  | append env' cs st' => simp [pass, hb, PassEnd.prepend] at h
  | fail e cs st' =>
    simp only [pass, hb, PassEnd.failed.injEq] at h
    exact ⟨cs, st', by rw [h]⟩
  | panic => simp [pass, hb] at h

/-- C16 (abort on first failure): let the entries `pre` resolve and the pass fail
at the next entry `env` with `err`. Then for every list `post` of later
entries the pass over `pre ++ env :: post` returns `err`, and its calls are
those of the pass over `pre ++ [env]`: none is made for `post`. The calls made
for `pre` ask, in input order, for the normalised names of its tagged entries,
and none of them failed. After them comes nothing when `err` is the error of a
missing ambient scope, and the one failed call when `err` wraps its cause. -/
theorem abort_on_first_failure {κ σ ε : Type} (sp : SecretsProvider κ σ ε) (ctx : κ)
    (pre post outPre : List Str) (env : Str) (st : σ) (err : Error ε)
    (hpre : (ResolveSecrets sp ctx pre st).ret = some (outPre, none))
    (hfail : (ResolveSecrets sp ctx (pre ++ [env]) st).ret = some (pre ++ [env], some err)) :
    (ResolveSecrets sp ctx (pre ++ env :: post) st).ret = some (pre ++ env :: post, some err) ∧
    (ResolveSecrets sp ctx (pre ++ env :: post) st).calls =
      (ResolveSecrets sp ctx (pre ++ [env]) st).calls ∧
    (ResolveSecrets sp ctx pre st).calls.map Prod.fst =
      pre.filterMap (fun e => (reference e).map (normalisedName sp.projectID)) ∧
    (∀ name cause, (name, Except.error cause) ∉ (ResolveSecrets sp ctx pre st).calls) ∧
    ((∃ name, reference env = some name ∧ err = .Errorf (unknownProjectMsg name) ∧
        (ResolveSecrets sp ctx (pre ++ env :: post) st).calls =
          (ResolveSecrets sp ctx pre st).calls) ∨
      (∃ name cause, reference env = some name ∧ err = .Wrap cause fetchFailedMsg ∧
        (ResolveSecrets sp ctx (pre ++ env :: post) st).calls =
          (ResolveSecrets sp ctx pre st).calls ++
            [(normalisedName sp.projectID name, .error cause)])) := by
  have hd := (ret_ok_iff sp ctx pre outPre st).1 hpre
  have hone : (pass sp ctx [env] (pass sp ctx pre st).2.1).2.2 = .failed err := by
    rw [resolve_eq_pass, pass_append_of_done sp ctx pre [env] outPre st hd] at hfail
    cases hp : (pass sp ctx [env] (pass sp ctx pre st).2.1).2.2 with
    | done o => simp [hp, PassEnd.prepend, PassEnd.toRet] at hfail
    | failed e =>
      simp only [hp, PassEnd.prepend, PassEnd.toRet, Option.some.injEq, Prod.mk.injEq,
        true_and] at hfail
      rw [hfail]
    | panicked => simp [hp, PassEnd.prepend, PassEnd.toRet] at hfail
  obtain ⟨cs, st', hb⟩ := pass_singleton_failed sp ctx env _ err hone
  have hcons : ∀ rest, pass sp ctx (env :: rest) (pass sp ctx pre st).2.1 =
      (cs, st', .failed err) := by
    intro rest
    simp [pass, hb]
  have hrun : ∀ rest, pass sp ctx (pre ++ env :: rest) st =
      ((pass sp ctx pre st).1 ++ cs, st', .failed err) := by
    intro rest
    rw [pass_append_of_done sp ctx pre (env :: rest) outPre st hd, hcons rest]
    rfl
  simp only [resolve_eq_pass, hrun post, hrun []]
  refine ⟨rfl, trivial, (pass_done_calls sp ctx pre outPre st hd).1, ?_, ?_⟩
  · intro name cause hc
    have := pass_failed_of_error_call sp ctx pre st name cause hc
    rw [hd] at this
    cases this
  · rcases body_fail_cases sp ctx env _ st' err cs hb with ⟨name, hr, he, hcs⟩ |
      ⟨name, cause, hr, he, hcs⟩
    · exact Or.inl ⟨name, hr, he, by simp [hcs]⟩
    · exact Or.inr ⟨name, cause, hr, he, by simp [hcs]⟩

/-- Witness of C16: of five entries the third fails to fetch; the calls are the
fetch of the first entry and the one failed fetch of the third, and no call
is made for the fourth. -/
theorem abort_on_first_failure_witness :
    (ResolveSecrets twoSecretsProvider ()
      (["A=gcp:secretmanager:s1".toList, "B=plain".toList] ++
        "C=gcp:secretmanager:missing".toList ::
          ["D=gcp:secretmanager:s2".toList, "E=x".toList]) ()).calls =
      [("projects/p/secrets/s1/versions/latest".toList, .ok "v1".toList),
        ("projects/p/secrets/missing/versions/latest".toList,
          .error "projects/p/secrets/missing/versions/latest".toList)] ∧
    (ResolveSecrets twoSecretsProvider ()
      (["A=gcp:secretmanager:s1".toList, "B=plain".toList] ++
        "C=gcp:secretmanager:missing".toList ::
          ["D=gcp:secretmanager:s2".toList, "E=x".toList]) ()).calls =
    (ResolveSecrets twoSecretsProvider ()
      (["A=gcp:secretmanager:s1".toList, "B=plain".toList] ++
        ["C=gcp:secretmanager:missing".toList]) ()).calls :=
  ⟨by decide,
    (abort_on_first_failure twoSecretsProvider ()
      ["A=gcp:secretmanager:s1".toList, "B=plain".toList]
      ["D=gcp:secretmanager:s2".toList, "E=x".toList]
      ["A=v1".toList, "B=plain".toList] "C=gcp:secretmanager:missing".toList ()
      (.Wrap "projects/p/secrets/missing/versions/latest".toList fetchFailedMsg)
      (by decide) (by decide)).2.1⟩

end SecretsInit

namespace SecretsInit

/-! ## Construction of the provider -/

/-- C14 (ambient scope at construction): when the client is created, the
provider built from a non-empty `projectID` argument has exactly that argument
as ambient scope and `metadata.ProjectID()` is not called; built from an empty
argument it has the discovered project id when discovery succeeds, and the
empty string when discovery fails. -/
theorem ambient_scope_at_construction {κ σ ε δ : Type} (d : Except δ Str)
    (NewClient : κ → Except ε (SecretsManagerAPI κ σ ε)) (ctx : κ) (projectID : Str)
    (sm : SecretsManagerAPI κ σ ε) (hsm : NewClient ctx = .ok sm) :
    (projectID ≠ [] →
      (NewGoogleSecretsProvider (metadataProjectID d) NewClient ctx projectID).ret =
        .ok ⟨sm, projectID⟩ ∧
      (NewGoogleSecretsProvider (metadataProjectID d) NewClient ctx projectID).discoveries = 0) ∧
    (projectID = [] → ∀ id, d = .ok id →
      (NewGoogleSecretsProvider (metadataProjectID d) NewClient ctx projectID).ret =
        .ok ⟨sm, id⟩) ∧
    (projectID = [] → ∀ err, d = .error err →
      (NewGoogleSecretsProvider (metadataProjectID d) NewClient ctx projectID).ret =
        .ok ⟨sm, []⟩) := by
  refine ⟨?_, ?_, ?_⟩
  · intro hp
    simp [NewGoogleSecretsProvider, hsm, hp]
  · intro hp id hd
    simp [NewGoogleSecretsProvider, hsm, hp, hd, metadataProjectID]
  · intro hp err hd
    simp [NewGoogleSecretsProvider, hsm, hp, hd, metadataProjectID]

/-- Witness of C14: the argument `mine` wins over a discovered `found`, an empty
argument takes `found`, and an empty argument with a failed discovery leaves
the scope empty. -/
theorem ambient_scope_at_construction_witness :
    ((NewGoogleSecretsProvider (metadataProjectID (.ok "found".toList : Except Str Str))
        echoClient () "mine".toList).ret = .ok ⟨echoStore, "mine".toList⟩ ∧
      (NewGoogleSecretsProvider (metadataProjectID (.ok "found".toList : Except Str Str))
        echoClient () "mine".toList).discoveries = 0) ∧
    (NewGoogleSecretsProvider (metadataProjectID (.ok "found".toList : Except Str Str))
      echoClient () []).ret = .ok ⟨echoStore, "found".toList⟩ ∧
    (NewGoogleSecretsProvider (metadataProjectID (.error "no metadata".toList : Except Str Str))
      echoClient () []).ret = .ok ⟨echoStore, []⟩ :=
  ⟨(ambient_scope_at_construction (.ok "found".toList : Except Str Str) echoClient ()
      "mine".toList echoStore rfl).1 (by decide),
    (ambient_scope_at_construction (.ok "found".toList : Except Str Str) echoClient ()
      [] echoStore rfl).2.1 rfl "found".toList rfl,
    (ambient_scope_at_construction (.error "no metadata".toList : Except Str Str) echoClient ()
      [] echoStore rfl).2.2 rfl "no metadata".toList rfl⟩

/-- C15 (construction fails exactly when the client cannot be created): for
every `projectID` argument and every result of `metadata.ProjectID()`,
`NewGoogleSecretsProvider` returns an error, and then no provider, if and only
if `secretmanager.NewClient` fails; the error wraps the client's error, and a
failed discovery with a created client gives a provider. -/
theorem construction_fails_iff_no_client {κ σ ε δ : Type} (ProjectID : Str × Option δ)
    (NewClient : κ → Except ε (SecretsManagerAPI κ σ ε)) (ctx : κ) (projectID : Str) :
    ((∃ err, (NewGoogleSecretsProvider ProjectID NewClient ctx projectID).ret = .error err) ↔
      ∃ cause, NewClient ctx = .error cause) ∧
    (∀ cause, NewClient ctx = .error cause →
      (NewGoogleSecretsProvider ProjectID NewClient ctx projectID).ret =
        .error (.Wrap cause initFailedMsg)) ∧
    (∀ sm, NewClient ctx = .ok sm →
      ∃ scope, (NewGoogleSecretsProvider ProjectID NewClient ctx projectID).ret =
        .ok ⟨sm, scope⟩) := by
  cases hc : NewClient ctx with
  | error cause => simp [NewGoogleSecretsProvider, hc]
  | ok sm => simp [NewGoogleSecretsProvider, hc]

/-- Witness of C15: construction fails when the client cannot be created, also
with an explicit scope, and succeeds after a failed discovery when it can. -/
theorem construction_fails_iff_no_client_witness :
    (NewGoogleSecretsProvider (metadataProjectID (.ok "found".toList : Except Str Str))
      noClient () "mine".toList).ret =
        .error (.Wrap "no credentials".toList initFailedMsg) ∧
    ∃ scope, (NewGoogleSecretsProvider
      (metadataProjectID (.error "no metadata".toList : Except Str Str))
      echoClient () []).ret = .ok ⟨echoStore, scope⟩ :=
  ⟨(construction_fails_iff_no_client (metadataProjectID (.ok "found".toList : Except Str Str))
      noClient () "mine".toList).2.1 "no credentials".toList rfl,
    (construction_fails_iff_no_client
      (metadataProjectID (.error "no metadata".toList : Except Str Str))
      echoClient () []).2.2 echoStore rfl⟩

end SecretsInit

namespace SecretsInit

/-! ## The regular expression matcher -/

namespace Regexp

theorem nullable_iff (r : Regexp) : nullable r = true ↔ Matches r [] := by
  induction r with
  | noMatch => simp [nullable, Matches]
  | emptyMatch => simp [nullable, Matches]
  | literal a => simp [nullable, Matches]
  | notIn cs => simp [nullable, Matches]
  | concat r₁ r₂ ih₁ ih₂ =>
    simp only [nullable, Bool.and_eq_true, ih₁, ih₂, Matches]
    constructor
    · rintro ⟨h₁, h₂⟩
      exact ⟨[], [], rfl, h₁, h₂⟩
    · rintro ⟨u, v, huv, h₁, h₂⟩
      have hu : u = [] := (List.append_eq_nil.1 huv.symm).1
      have hv : v = [] := (List.append_eq_nil.1 huv.symm).2
      subst hu hv
      exact ⟨h₁, h₂⟩
  | alternate r₁ r₂ ih₁ ih₂ => simp [nullable, Matches, ih₁, ih₂]
  | star r _ =>
    simp only [nullable, Matches, true_iff]
    exact ⟨[], rfl, by simp⟩
  | plus r ih =>
    simp only [nullable, ih, Matches]
    constructor
    · intro h
      exact ⟨[], [], rfl, h, by simp⟩
    · rintro ⟨u, L, huv, h, -⟩
      have hu : u = [] := (List.append_eq_nil.1 huv.symm).1
      subst hu
      exact h
  | quest r _ => simp [nullable, Matches]

/-- A non-empty match of `r*` begins with a non-empty match of `r`. -/
theorem star_cons_iff (r : Regexp) (c : Char) (s : Str) :
    Matches (star r) (c :: s) ↔
      ∃ u v, s = u ++ v ∧ Matches r (c :: u) ∧ Matches (star r) v := by
  constructor
  · rintro ⟨L, hL, hall⟩
    induction L with
    | nil => simp at hL
    | cons y L ih =>
      cases y with
      | nil =>
        exact ih (by simpa using hL) (fun z hz => hall z (List.mem_cons_of_mem _ hz))
      | cons a u =>
        simp only [List.flatten_cons, List.cons_append, List.cons.injEq] at hL
        obtain ⟨hca, hs⟩ := hL
        subst hca
        exact ⟨u, L.flatten, hs, hall _ (by simp),
          L, rfl, fun z hz => hall z (List.mem_cons_of_mem _ hz)⟩
  · rintro ⟨u, v, hs, hu, L, hv, hall⟩
    refine ⟨(c :: u) :: L, by simp [hs, hv], ?_⟩
    intro y hy
    rcases List.mem_cons.1 hy with rfl | hy
    · exact hu
    · exact hall y hy

/-- The derivative matches what is left of a match after its first character. -/
theorem deriv_iff (r : Regexp) (c : Char) (s : Str) :
    Matches (deriv r c) s ↔ Matches r (c :: s) := by
  induction r generalizing s with
  | noMatch => simp [deriv, Matches]
  | emptyMatch => simp [deriv, Matches]
  | literal a =>
    by_cases h : a = c
    · simp [deriv, Matches, h]
    · simp only [deriv, h, if_false, Matches, List.cons.injEq, false_iff, not_and]
      intro hc
      exact absurd hc.symm h
  | notIn cs =>
    by_cases h : c ∈ cs
    · simp only [deriv, h, if_true, Matches, List.cons.injEq, false_iff]
      rintro ⟨d, hd, hcd, -⟩
      exact hd (hcd ▸ h)
    · simp only [deriv, h, if_false, Matches, List.cons.injEq]
      constructor
      · intro hs
        exact ⟨c, h, rfl, hs⟩
      · rintro ⟨d, -, -, hs⟩
        exact hs
  | concat r₁ r₂ ih₁ ih₂ =>
    have key : Matches (concat r₁ r₂) (c :: s) ↔
        (Matches r₁ [] ∧ Matches r₂ (c :: s)) ∨
          ∃ u v, s = u ++ v ∧ Matches r₁ (c :: u) ∧ Matches r₂ v := by
      simp only [Matches]
      constructor
      · rintro ⟨u, v, huv, h₁, h₂⟩
        rcases List.cons_eq_append_iff.1 huv with ⟨hu, hv⟩ | ⟨u', hu, hs⟩
        · subst hu hv
          exact Or.inl ⟨h₁, h₂⟩
        · subst hu
          exact Or.inr ⟨u', v, hs, h₁, h₂⟩
      · rintro (⟨h₁, h₂⟩ | ⟨u, v, hs, h₁, h₂⟩)
        · exact ⟨[], c :: s, rfl, h₁, h₂⟩
        · exact ⟨c :: u, v, by simp [hs], h₁, h₂⟩
    rw [key]
    by_cases hn : nullable r₁ = true
    · simp only [deriv, hn, if_true, Matches, ih₁, ih₂]
      have h0 := (nullable_iff r₁).1 hn
      constructor
      · rintro (h | h)
        · exact Or.inr h
        · exact Or.inl ⟨h0, h⟩
      · rintro (⟨-, h⟩ | h)
        · exact Or.inr h
        · exact Or.inl h
    · simp only [deriv, hn, if_false, Matches, ih₁]
      have h0 : ¬ Matches r₁ [] := fun h => hn ((nullable_iff r₁).2 h)
      constructor
      · intro h
        exact Or.inr h
      · rintro (⟨h, -⟩ | h)
        · exact absurd h h0
        · exact h
  | alternate r₁ r₂ ih₁ ih₂ => simp [deriv, Matches, ih₁, ih₂]
  | star r ih =>
    rw [star_cons_iff]
    simp only [deriv, Matches, ih]
  | plus r ih =>
    have hstar : ∀ v, Matches (star r) v ↔ ∃ L : List Str, v = L.flatten ∧ ∀ y ∈ L, Matches r y :=
      fun v => by simp only [Matches]
    have hd : Matches (deriv (plus r) c) s ↔
        ∃ u v, s = u ++ v ∧ Matches r (c :: u) ∧ Matches (star r) v := by
      simp only [deriv, Matches, ih]
    rw [hd]
    constructor
    · rintro ⟨u, v, hs, hu, L, hv, hall⟩
      exact ⟨c :: u, L, by simp [hs, hv], hu, hall⟩
    · rintro ⟨u, L, hs, hu, hall⟩
      rcases List.cons_eq_append_iff.1 hs with ⟨hu0, hL⟩ | ⟨u', hu', hs'⟩
      · subst hu0
        exact (star_cons_iff r c s).1 ⟨L, hL.symm, hall⟩
      · subst hu'
        exact ⟨u', L.flatten, hs', hu, (hstar _).2 ⟨L, rfl, hall⟩⟩
  | quest r ih => simp [deriv, Matches, ih]

/-- The prefix matcher finds a match exactly when a prefix of the input is in the
language. -/
theorem matchesPrefix_iff (r : Regexp) (s : Str) :
    matchesPrefix r s = true ↔ ∃ p t, s = p ++ t ∧ Matches r p := by
  induction s generalizing r with
  | nil =>
    simp only [matchesPrefix, nullable_iff]
    constructor
    · intro h
      exact ⟨[], [], rfl, h⟩
    · rintro ⟨p, t, hpt, h⟩
      have hp : p = [] := (List.append_eq_nil.1 hpt.symm).1
      subst hp
      exact h
  | cons c s ih =>
    simp only [matchesPrefix, Bool.or_eq_true, nullable_iff, ih]
    constructor
    · rintro (h | ⟨p, t, hs, h⟩)
      · exact ⟨[], c :: s, rfl, h⟩
      · exact ⟨c :: p, t, by simp [hs], (deriv_iff r c p).1 h⟩
    · rintro ⟨p, t, hpt, h⟩
      rcases List.cons_eq_append_iff.1 hpt with ⟨hp, -⟩ | ⟨p', hp, hs⟩
      · subst hp
        exact Or.inl h
      · subst hp
        exact Or.inr ⟨p', t, hs, (deriv_iff r c p').2 h⟩

end Regexp

/-- `MatchString` finds a match exactly when a substring of the input is in the
language of the expression. -/
theorem MatchString_iff (re : Regexp) (s : Str) :
    MatchString re s = true ↔ ∃ a p b, s = a ++ (p ++ b) ∧ re.Matches p := by
  induction s with
  | nil =>
    simp only [MatchString, Regexp.matchesPrefix_iff]
    constructor
    · rintro ⟨p, t, h, hm⟩
      exact ⟨[], p, t, h, hm⟩
    · rintro ⟨a, p, b, h, hm⟩
      have ha : a = [] := (List.append_eq_nil.1 h.symm).1
      subst ha
      exact ⟨p, b, h, hm⟩
  | cons c s ih =>
    simp only [MatchString, Bool.or_eq_true, Regexp.matchesPrefix_iff, ih]
    constructor
    · rintro (⟨p, t, h, hm⟩ | ⟨a, p, b, h, hm⟩)
      · exact ⟨[], p, t, h, hm⟩
      · exact ⟨c :: a, p, b, by simp [h], hm⟩
    · rintro ⟨a, p, b, h, hm⟩
      rcases List.cons_eq_append_iff.1 h with ⟨ha, hpb⟩ | ⟨a', ha, hs⟩
      · exact Or.inl ⟨p, b, hpb.symm, hm⟩
      · exact Or.inr ⟨a', p, b, hs, hm⟩

end SecretsInit

namespace SecretsInit

/-! ## The language of `fullSecretRe` -/

theorem Matches_str (lit s : Str) : (Regexp.str lit).Matches s ↔ s = lit := by
  induction lit generalizing s with
  | nil => simp [Regexp.str, Regexp.Matches]
  | cons c cs ih =>
    simp only [Regexp.str, Regexp.Matches, ih]
    constructor
    · rintro ⟨u, v, hs, hu, hv⟩
      rw [hs, hu, hv]
      rfl
    · intro hs
      exact ⟨[c], cs, by simp [hs], rfl, rfl⟩

theorem flatten_singletons (t : Str) : (t.map (fun d => [d])).flatten = t := by
  induction t with
  | nil => rfl
  | cons d t ih => simp [ih]

theorem Matches_plus_notIn (cs : List Char) (s : Str) :
    (Regexp.plus (.notIn cs)).Matches s ↔ s ≠ [] ∧ ∀ c ∈ s, c ∉ cs := by
  simp only [Regexp.Matches]
  constructor
  · rintro ⟨u, L, hs, ⟨c, hc, hu⟩, hall⟩
    subst hu
    refine ⟨by simp [hs], ?_⟩
    intro d hd
    rw [hs] at hd
    rcases List.mem_append.1 hd with hd | hd
    · rw [List.mem_singleton.1 hd]
      exact hc
    · obtain ⟨y, hy, hdy⟩ := List.mem_flatten.1 hd
      obtain ⟨e, he, hye⟩ := hall y hy
      rw [hye, List.mem_singleton] at hdy
      rw [hdy]
      exact he
  · rintro ⟨hne, hall⟩
    cases s with
    | nil => exact absurd rfl hne
    | cons c t =>
      refine ⟨[c], t.map (fun d => [d]), by simp [flatten_singletons],
        ⟨c, hall c (by simp), rfl⟩, ?_⟩
      intro y hy
      obtain ⟨d, hd, hdy⟩ := List.mem_map.1 hy
      exact ⟨d, hall d (List.mem_cons_of_mem _ hd), hdy.symm⟩

theorem Matches_notSlashPlus (s : Str) :
    notSlashPlus.Matches s ↔ ∃ c, c ≠ '/' ∧ c ≠ '+' ∧ s = [c] := by
  simp only [notSlashPlus, Regexp.Matches]
  constructor
  · rintro ⟨c, hc, hs⟩
    exact ⟨c, fun h => hc (by simp [h]), fun h => hc (by simp [h]), hs⟩
  · rintro ⟨c, h₁, h₂, hs⟩
    exact ⟨c, by simp [h₁, h₂], hs⟩

/-- What `fullSecretRe` matches in full. -/
theorem Matches_fullSecretRe (p : Str) :
    fullSecretRe.Matches p ↔
      ∃ id c tail, p = "projects/".toList ++ (id ++ ("/secrets/".toList ++ (c :: tail))) ∧
        id ≠ [] ∧ '/' ∉ id ∧ c ≠ '/' ∧ c ≠ '+' ∧
        (tail = [] ∨ ∃ d, d ≠ '/' ∧ d ≠ '+' ∧ tail = "/version/".toList ++ [d]) := by
  constructor
  · intro h
    obtain ⟨u₁, v₁, h₁, hu₁, hv₁⟩ := h
    obtain ⟨u₂, v₂, h₂, hu₂, hv₂⟩ := hv₁
    obtain ⟨u₃, v₃, h₃, hu₃, hv₃⟩ := hv₂
    obtain ⟨u₄, v₄, h₄, hu₄, hv₄⟩ := hv₃
    rw [Matches_str] at hu₁ hu₃
    obtain ⟨hne, hall⟩ := (Matches_plus_notIn _ _).1 hu₂
    obtain ⟨c, hc₁, hc₂, hu₄'⟩ := (Matches_notSlashPlus _).1 hu₄
    refine ⟨u₂, c, v₄, ?_, hne, fun hm => hall _ hm (by simp), hc₁, hc₂, ?_⟩
    · rw [h₁, h₂, h₃, h₄, hu₁, hu₃, hu₄']
      rfl
    · rcases hv₄ with h | ⟨u₅, v₅, h₅, hu₅, hv₅⟩
      · exact Or.inl h
      · rw [Matches_str] at hu₅
        obtain ⟨d, hd₁, hd₂, hv₅'⟩ := (Matches_notSlashPlus _).1 hv₅
        exact Or.inr ⟨d, hd₁, hd₂, by rw [h₅, hu₅, hv₅']⟩
  · rintro ⟨id, c, tail, hp, hne, hid, hc₁, hc₂, htail⟩
    refine ⟨"projects/".toList, _, hp, (Matches_str _ _).2 rfl,
      id, _, rfl, (Matches_plus_notIn _ _).2 ⟨hne, fun d hd => ?_⟩,
      "/secrets/".toList, _, rfl, (Matches_str _ _).2 rfl,
      [c], tail, rfl, (Matches_notSlashPlus _).2 ⟨c, hc₁, hc₂, rfl⟩, ?_⟩
    · intro hd'
      rw [List.mem_singleton] at hd'
      exact hid (hd' ▸ hd)
    · rcases htail with h | ⟨d, hd₁, hd₂, h⟩
      · exact Or.inl h
      · exact Or.inr ⟨"/version/".toList, [d], h, (Matches_str _ _).2 rfl,
          (Matches_notSlashPlus _).2 ⟨d, hd₁, hd₂, rfl⟩⟩

/-- What the pattern without the optional group matches in full. -/
theorem Matches_fullSecretReNoGroup (p : Str) :
    fullSecretReNoGroup.Matches p ↔
      ∃ id c, p = "projects/".toList ++ (id ++ ("/secrets/".toList ++ [c])) ∧
        id ≠ [] ∧ '/' ∉ id ∧ c ≠ '/' ∧ c ≠ '+' := by
  constructor
  · intro h
    obtain ⟨u₁, v₁, h₁, hu₁, hv₁⟩ := h
    obtain ⟨u₂, v₂, h₂, hu₂, hv₂⟩ := hv₁
    obtain ⟨u₃, v₃, h₃, hu₃, hv₃⟩ := hv₂
    rw [Matches_str] at hu₁ hu₃
    obtain ⟨hne, hall⟩ := (Matches_plus_notIn _ _).1 hu₂
    obtain ⟨c, hc₁, hc₂, hv₃'⟩ := (Matches_notSlashPlus _).1 hv₃
    refine ⟨u₂, c, ?_, hne, fun hm => hall _ hm (by simp), hc₁, hc₂⟩
    rw [h₁, h₂, h₃, hu₁, hu₃, hv₃']
  · rintro ⟨id, c, hp, hne, hid, hc₁, hc₂⟩
    refine ⟨"projects/".toList, _, hp, (Matches_str _ _).2 rfl,
      id, _, rfl, (Matches_plus_notIn _ _).2 ⟨hne, fun d hd => ?_⟩,
      "/secrets/".toList, _, rfl, (Matches_str _ _).2 rfl,
      (Matches_notSlashPlus _).2 ⟨c, hc₁, hc₂, rfl⟩⟩
    intro hd'
    rw [List.mem_singleton] at hd'
    exact hid (hd' ▸ hd)

/-- The strings in which `fullSecretRe` finds a match. -/
theorem MatchString_fullSecretRe_iff (s : Str) :
    MatchString fullSecretRe s = true ↔
      ∃ pre id c post,
        s = pre ++ ("projects/".toList ++ (id ++ ("/secrets/".toList ++ (c :: post)))) ∧
        id ≠ [] ∧ '/' ∉ id ∧ c ≠ '/' ∧ c ≠ '+' := by
  rw [MatchString_iff]
  constructor
  · rintro ⟨a, p, b, hs, hm⟩
    obtain ⟨id, c, tail, hp, hne, hid, hc₁, hc₂, -⟩ := (Matches_fullSecretRe p).1 hm
    refine ⟨a, id, c, tail ++ b, ?_, hne, hid, hc₁, hc₂⟩
    rw [hs, hp]
    simp only [List.append_assoc, List.cons_append]
  · rintro ⟨pre, id, c, post, hs, hne, hid, hc₁, hc₂⟩
    refine ⟨pre, "projects/".toList ++ (id ++ ("/secrets/".toList ++ [c])), post, ?_,
      (Matches_fullSecretRe _).2 ⟨id, c, [], rfl, hne, hid, hc₁, hc₂, Or.inl rfl⟩⟩
    rw [hs]
    simp only [List.append_assoc, List.cons_append, List.nil_append]

theorem MatchString_fullSecretReNoGroup_iff (s : Str) :
    MatchString fullSecretReNoGroup s = true ↔
      ∃ pre id c post,
        s = pre ++ ("projects/".toList ++ (id ++ ("/secrets/".toList ++ (c :: post)))) ∧
        id ≠ [] ∧ '/' ∉ id ∧ c ≠ '/' ∧ c ≠ '+' := by
  rw [MatchString_iff]
  constructor
  · rintro ⟨a, p, b, hs, hm⟩
    obtain ⟨id, c, hp, hne, hid, hc₁, hc₂⟩ := (Matches_fullSecretReNoGroup p).1 hm
    refine ⟨a, id, c, b, ?_, hne, hid, hc₁, hc₂⟩
    rw [hs, hp]
    simp only [List.append_assoc, List.cons_append, List.nil_append]
  · rintro ⟨pre, id, c, post, hs, hne, hid, hc₁, hc₂⟩
    refine ⟨pre, "projects/".toList ++ (id ++ ("/secrets/".toList ++ [c])), post, ?_,
      (Matches_fullSecretReNoGroup _).2 ⟨id, c, rfl, hne, hid, hc₁, hc₂⟩⟩
    rw [hs]
    simp only [List.append_assoc, List.cons_append, List.nil_append]

/-- C19 (the fully-qualified test, exactly): `fullSecretRe.MatchString(s)` holds if
and only if `s` contains, anywhere, `projects/`, then one or more characters
other than `/`, then `/secrets/`, then one character that is neither `/` nor
`+`; what comes before and after is free, so the match is not anchored and only
the first character of the secret name is looked at; and the optional group
`(/version/[^/+])?` changes nothing: the pattern without it gives the same
answer on every string. -/
theorem isLong_characterisation (s : Str) :
    (MatchString fullSecretRe s = true ↔
      ∃ pre id c post,
        s = pre ++ ("projects/".toList ++ (id ++ ("/secrets/".toList ++ (c :: post)))) ∧
        id ≠ [] ∧ '/' ∉ id ∧ c ≠ '/' ∧ c ≠ '+') ∧
    MatchString fullSecretRe s = MatchString fullSecretReNoGroup s := by
  refine ⟨MatchString_fullSecretRe_iff s, ?_⟩
  rw [Bool.eq_iff_iff, MatchString_fullSecretRe_iff, MatchString_fullSecretReNoGroup_iff]

end SecretsInit

namespace SecretsInit

/-! ## Passes over concatenated lists -/

theorem access_state_independent {κ σ ε : Type} (sp : SecretsProvider κ σ ε) (ctx : κ)
    (hfun : ∀ name st₁ st₂, (sp.sm.AccessSecretVersion ctx name st₁).1 =
      (sp.sm.AccessSecretVersion ctx name st₂).1)
    (key name : Str) (st₁ st₂ : σ) :
    (∃ err cs s₁ s₂, ResolveSecrets.access sp ctx key name st₁ = .fail err cs s₁ ∧
      ResolveSecrets.access sp ctx key name st₂ = .fail err cs s₂) ∨
    (∃ env' cs s₁ s₂, ResolveSecrets.access sp ctx key name st₁ = .append env' cs s₁ ∧
      ResolveSecrets.access sp ctx key name st₂ = .append env' cs s₂) := by
  have h := hfun (ResolveSecrets.versioned name) st₁ st₂
  simp only [ResolveSecrets.access]
  rcases h₁ : sp.sm.AccessSecretVersion ctx (ResolveSecrets.versioned name) st₁ with ⟨r₁, s₁⟩
  rcases h₂ : sp.sm.AccessSecretVersion ctx (ResolveSecrets.versioned name) st₂ with ⟨r₂, s₂⟩
  rw [h₁, h₂] at h
  simp only at h
  subst h
  cases r₁ with
  | error e => exact Or.inl ⟨_, _, s₁, s₂, rfl, rfl⟩
  | ok payload => exact Or.inr ⟨_, _, s₁, s₂, rfl, rfl⟩

/-- Over a store that answers as a function of the name, an iteration does the
same from any two store states, up to the store state it leaves. -/
theorem body_state_independent {κ σ ε : Type} (sp : SecretsProvider κ σ ε) (ctx : κ)
    (hfun : ∀ name st₁ st₂, (sp.sm.AccessSecretVersion ctx name st₁).1 =
      (sp.sm.AccessSecretVersion ctx name st₂).1)
    (env : Str) (st₁ st₂ : σ) :
    (∃ err cs s₁ s₂, ResolveSecrets.body sp ctx env st₁ = .fail err cs s₁ ∧
      ResolveSecrets.body sp ctx env st₂ = .fail err cs s₂) ∨
    (∃ env' cs s₁ s₂, ResolveSecrets.body sp ctx env st₁ = .append env' cs s₁ ∧
      ResolveSecrets.body sp ctx env st₂ = .append env' cs s₂) ∨
    (ResolveSecrets.body sp ctx env st₁ = .panic ∧
      ResolveSecrets.body sp ctx env st₂ = .panic) := by
  by_cases hm : '=' ∈ env
  · rw [body_of_mem sp ctx st₁ hm, body_of_mem sp ctx st₂ hm]
    split
    · split
      · rcases access_state_independent sp ctx hfun (keyOf env) _ st₁ st₂ with h | h
        · exact Or.inl h
        · exact Or.inr (Or.inl h)
      · split
        · exact Or.inl ⟨_, _, st₁, st₂, rfl, rfl⟩
        · rcases access_state_independent sp ctx hfun (keyOf env) _ st₁ st₂ with h | h
          · exact Or.inl h
          · exact Or.inr (Or.inl h)
    · exact Or.inr (Or.inl ⟨_, _, st₁, st₂, rfl, rfl⟩)
  · exact Or.inr (Or.inr ⟨body_of_not_mem sp ctx st₁ hm, body_of_not_mem sp ctx st₂ hm⟩)

theorem pass_state_independent {κ σ ε : Type} (sp : SecretsProvider κ σ ε) (ctx : κ)
    (hfun : ∀ name st₁ st₂, (sp.sm.AccessSecretVersion ctx name st₁).1 =
      (sp.sm.AccessSecretVersion ctx name st₂).1)
    (vars : List Str) (st₁ st₂ : σ) :
    (pass sp ctx vars st₁).1 = (pass sp ctx vars st₂).1 ∧
    (pass sp ctx vars st₁).2.2 = (pass sp ctx vars st₂).2.2 := by
  induction vars generalizing st₁ st₂ with
  | nil => simp [pass]
  | cons env rest ih =>
    rcases body_state_independent sp ctx hfun env st₁ st₂ with
      ⟨err, cs, s₁, s₂, h₁, h₂⟩ | ⟨env', cs, s₁, s₂, h₁, h₂⟩ | ⟨h₁, h₂⟩
    · simp [pass, h₁, h₂]
    · obtain ⟨ihc, ihe⟩ := ih s₁ s₂
      rw [pass_cons_append sp ctx env rest st₁ s₁ env' cs h₁,
        pass_cons_append sp ctx env rest st₂ s₂ env' cs h₂]
      simp [ihc, ihe]
    · simp [pass, h₁, h₂]

/-- C20 (the pass distributes over concatenation): for a provider over a store
that answers as a function of the name, the pass over `xs ++ ys` succeeds if and
only if the passes over `xs` and over `ys` both succeed, its output is then the
output for `xs` followed by the output for `ys`, and an output entry depends
only on the input entry of the same index: the same entry gives the same
output entry in any two successful passes, at whatever index and store state. -/
theorem resolve_distributes_over_append {κ σ ε : Type} (sp : SecretsProvider κ σ ε) (ctx : κ)
    (hfun : ∀ name st₁ st₂, (sp.sm.AccessSecretVersion ctx name st₁).1 =
      (sp.sm.AccessSecretVersion ctx name st₂).1)
    (xs ys : List Str) (st : σ) :
    ((∃ out, (ResolveSecrets sp ctx (xs ++ ys) st).ret = some (out, none)) ↔
      (∃ out₁, (ResolveSecrets sp ctx xs st).ret = some (out₁, none)) ∧
        ∃ out₂, (ResolveSecrets sp ctx ys st).ret = some (out₂, none)) ∧
    (∀ out₁ out₂, (ResolveSecrets sp ctx xs st).ret = some (out₁, none) →
      (ResolveSecrets sp ctx ys st).ret = some (out₂, none) →
      (ResolveSecrets sp ctx (xs ++ ys) st).ret = some (out₁ ++ out₂, none)) ∧
    (∀ (vars vars' out out' : List Str) (st' : σ) (i j : Nat) (env : Str),
      (ResolveSecrets sp ctx vars st).ret = some (out, none) →
      (ResolveSecrets sp ctx vars' st').ret = some (out', none) →
      vars[i]? = some env → vars'[j]? = some env → out[i]? = out'[j]?) := by
  have hys : ∀ s, (pass sp ctx ys s).2.2 = (pass sp ctx ys st).2.2 :=
    fun s => (pass_state_independent sp ctx hfun ys s st).2
  have hboth : ∀ out₁ out₂, (pass sp ctx xs st).2.2 = .done out₁ →
      (pass sp ctx ys st).2.2 = .done out₂ →
      (pass sp ctx (xs ++ ys) st).2.2 = .done (out₁ ++ out₂) := by
    intro out₁ out₂ h₁ h₂
    rw [pass_append_of_done sp ctx xs ys out₁ st h₁]
    simp only [hys, h₂, PassEnd.prepend]
  simp only [ret_ok_iff]
  refine ⟨⟨?_, ?_⟩, hboth, ?_⟩
  · rintro ⟨out, h⟩
    cases hx : (pass sp ctx xs st).2.2 with
    | done o =>
      rw [pass_append_of_done sp ctx xs ys o st hx] at h
      obtain ⟨o', ho', -⟩ := prepend_eq_done _ _ _ h
      rw [hys] at ho'
      exact ⟨⟨o, rfl⟩, ⟨o', ho'⟩⟩
    | failed err =>
      rw [pass_append_of_not_done sp ctx xs ys st (by simp [hx]), hx] at h
      cases h
    | panicked =>
      rw [pass_append_of_not_done sp ctx xs ys st (by simp [hx]), hx] at h
      cases h
  · rintro ⟨⟨o₁, h₁⟩, ⟨o₂, h₂⟩⟩
    exact ⟨o₁ ++ o₂, hboth o₁ o₂ h₁ h₂⟩
  · intro vars vars' out out' st' i j env hv hv' hi hj
    obtain ⟨e₁, s₁, cs₁, t₁, ho₁, hb₁⟩ := (pass_done_index sp ctx vars out st hv).2 i env hi
    obtain ⟨e₂, s₂, cs₂, t₂, ho₂, hb₂⟩ := (pass_done_index sp ctx vars' out' st' hv').2 j env hj
    rw [ho₁, ho₂]
    rcases body_state_independent sp ctx hfun env s₁ s₂ with
      ⟨err, cs, u₁, u₂, h₁, h₂⟩ | ⟨env', cs, u₁, u₂, h₁, h₂⟩ | ⟨h₁, h₂⟩
    · rw [h₁] at hb₁
      cases hb₁
    · rw [h₁] at hb₁
      rw [h₂] at hb₂
      cases hb₁
      cases hb₂
      rfl
    · rw [h₁] at hb₁
      cases hb₁

/-- Witness of C20: over `echoStore`, the pass over
`[A=gcp:secretmanager:s] ++ [B=x]` gives the output of the first list followed
by that of the second. -/
theorem resolve_distributes_over_append_witness :
    (ResolveSecrets (echoProvider "p".toList) () ["A=gcp:secretmanager:s".toList] ()).ret =
      some (["A=projects/p/secrets/s/versions/latest".toList], none) ∧
    (ResolveSecrets (echoProvider "p".toList) () ["B=x".toList] ()).ret =
      some (["B=x".toList], none) ∧
    (ResolveSecrets (echoProvider "p".toList) ()
      (["A=gcp:secretmanager:s".toList] ++ ["B=x".toList]) ()).ret =
      some (["A=projects/p/secrets/s/versions/latest".toList] ++ ["B=x".toList], none) :=
  ⟨by decide, by decide,
    (resolve_distributes_over_append (echoProvider "p".toList) () (fun _ _ _ => rfl)
      ["A=gcp:secretmanager:s".toList] ["B=x".toList] ()).2.1 _ _ (by decide) (by decide)⟩

end SecretsInit

namespace SecretsInit

/-! ## Classification by the structure a reference contains -/

theorem not_long_of_not_Contains (R : Str)
    (h : Contains R "projects/".toList = false) : MatchString fullSecretRe R = false := by
  by_contra hc
  have hm : MatchString fullSecretRe R = true := by simpa using hc
  obtain ⟨pre, id, c, post, hR, -⟩ := (MatchString_fullSecretRe_iff R).1 hm
  rw [hR, Contains_infix] at h
  cases h

/-- The pass over `pre ++ env :: post` when `pre` resolves and the iteration
over `env` returns an error. -/
theorem resolve_fail_at {κ σ ε : Type} (sp : SecretsProvider κ σ ε) (ctx : κ)
    (pre post outPre : List Str) (env : Str) (st st' : σ) (err : Error ε) (cs : List (Call ε))
    (hpre : (ResolveSecrets sp ctx pre st).ret = some (outPre, none))
    (hb : ResolveSecrets.body sp ctx env (pass sp ctx pre st).2.1 = .fail err cs st') :
    (ResolveSecrets sp ctx (pre ++ env :: post) st).ret =
      some (pre ++ env :: post, some err) := by
  have hd := (ret_ok_iff sp ctx pre outPre st).1 hpre
  rw [resolve_eq_pass, pass_append_of_done sp ctx pre (env :: post) outPre st hd]
  simp [pass, hb, PassEnd.prepend, PassEnd.toRet]

end SecretsInit

namespace SecretsInit

/-! ## Documented forms that the classifier misplaces -/

/-- C5, the code at the failing input: `projects/p/secrets/+x/versions/7` is a
fully-qualified reference of the documented shape, but `fullSecretRe` does not
match it (`[^/+]` excludes `+` as first character of the name), so what is
fetched depends on the ambient scope: a provider with ambient scope `q`
requests `projects/q/secrets/projects/p/secrets/+x/versions/7` and succeeds,
while a provider over the same store with no ambient scope makes no call and
returns the error of line 69. -/
theorem fully_qualified_plus_depends_on_scope :
    MatchString fullSecretRe "projects/p/secrets/+x/versions/7".toList = false ∧
    (ResolveSecrets (echoProvider "q".toList) ()
      ["K=gcp:secretmanager:projects/p/secrets/+x/versions/7".toList] ()).calls.map Prod.fst =
      ["projects/q/secrets/projects/p/secrets/+x/versions/7".toList] ∧
    (ResolveSecrets (echoProvider "q".toList) ()
      ["K=gcp:secretmanager:projects/p/secrets/+x/versions/7".toList] ()).ret =
      some (["K=projects/q/secrets/projects/p/secrets/+x/versions/7".toList], none) ∧
    (ResolveSecrets (echoProvider []) ()
      ["K=gcp:secretmanager:projects/p/secrets/+x/versions/7".toList] ()).calls = [] ∧
    (ResolveSecrets (echoProvider []) ()
      ["K=gcp:secretmanager:projects/p/secrets/+x/versions/7".toList] ()).ret =
      some (["K=gcp:secretmanager:projects/p/secrets/+x/versions/7".toList],
        some (.Errorf (unknownProjectMsg "projects/p/secrets/+x/versions/7".toList))) := by
  decide

/-- C6, the code at the failing input: `s/versions/projects/a/secrets/b` is a
short-form reference (the short name `s` with a version), and it does not
begin with `projects/`; yet a provider with no ambient scope does not return
an error for it: the search of `fullSecretRe`, which is not anchored, finds
`projects/a/secrets/b` inside it, so the reference is requested from the store
as it stands and the pass succeeds; the claim's own example `secretA`, in the
same list, is what then stops a pass. -/
theorem short_form_fetched_without_scope :
    HasPrefix "s/versions/projects/a/secrets/b".toList "projects/".toList = false ∧
    (echoProvider []).projectID = [] ∧
    (ResolveSecrets (echoProvider []) ()
      ["X=gcp:secretmanager:s/versions/projects/a/secrets/b".toList] ()).calls.map Prod.fst =
      ["s/versions/projects/a/secrets/b".toList] ∧
    (ResolveSecrets (echoProvider []) ()
      ["X=gcp:secretmanager:s/versions/projects/a/secrets/b".toList] ()).ret =
      some (["X=s/versions/projects/a/secrets/b".toList], none) ∧
    (ResolveSecrets (echoProvider []) ()
      ["X=gcp:secretmanager:s/versions/projects/a/secrets/b".toList,
        "Y=gcp:secretmanager:secretA".toList] ()).calls.map Prod.fst =
      ["s/versions/projects/a/secrets/b".toList] ∧
    (ResolveSecrets (echoProvider []) ()
      ["X=gcp:secretmanager:s/versions/projects/a/secrets/b".toList,
        "Y=gcp:secretmanager:secretA".toList] ()).ret.map Prod.snd =
      some (some (.Errorf (unknownProjectMsg "secretA".toList))) := by
  decide

end SecretsInit
